import Mathlib

/-!
Shallow embedding of `preprocess_survey_data` from
`src/preprocessing/automate_kenny.py`.

A table is a header (list of column names) together with a list of rows;
each cell is a scalar `Val`: a rational number (idealizing the float
values of the source), a text string, or the missing marker `na`
(pandas `NaN`).  Operations that the source program can abort on
(`mode()[0]` of an empty mode list, `median()` over text,
`astype(int)` with missing values present, strict `pd.to_numeric`)
are modelled in the `Option` monad: `none` is the raised exception.
-/

namespace DiabetesPrep

inductive Val where
  | num (q : ℚ)
  | str (s : String)
  | na
deriving DecidableEq

def isNA : Val → Bool
  | .na => true
  | _ => false

def isStr : Val → Bool
  | .str _ => true
  | _ => false

def isNumV : Val → Bool
  | .num _ => true
  | _ => false

/-- Numeric-string parsing used by `pd.to_numeric`: optional minus sign,
digits, optional fractional part. -/
def digitsVal (cs : List Char) : Option Nat :=
  cs.foldl (fun acc c =>
    match acc with
    | none => none
    | some n => if c.isDigit then some (10 * n + (c.toNat - 48)) else none) (some 0)

def parseDigits (cs : List Char) : Option Nat :=
  if cs.isEmpty then none else digitsVal cs

def parseUnsigned (cs : List Char) : Option ℚ :=
  match cs.span (· != '.') with
  | (ip, []) => (parseDigits ip).map (fun n => (n : ℚ))
  | (ip, _ :: fp) =>
    match parseDigits ip, parseDigits fp with
    | some n, some f => some ((n : ℚ) + (f : ℚ) / ((10 : ℚ) ^ fp.length))
    | _, _ => none

def parseNumStr (s : String) : Option ℚ :=
  match s.data with
  | '-' :: rest => (parseUnsigned rest).map (fun q => -q)
  | cs => parseUnsigned cs

/-- Model of `pd.to_numeric(v, errors='coerce')` on one cell: numbers pass through,
numeric text parses, everything else becomes missing. -/
def toNum : Val → Val
  | .num q => .num q
  | .str s =>
    match parseNumStr s with
    | some q => .num q
    | none => .na
  | .na => .na

def numsOf (vs : List Val) : List ℚ :=
  vs.filterMap (fun v => match v with | .num q => some q | _ => none)

def hasStr (vs : List Val) : Bool := vs.any isStr

def insertQ (x : ℚ) : List ℚ → List ℚ
  | [] => [x]
  | y :: ys => if x ≤ y then x :: y :: ys else y :: insertQ x ys

def sortQ : List ℚ → List ℚ
  | [] => []
  | x :: xs => insertQ x (sortQ xs)

/-- Model of `Series.median()` over a list of rationals (pandas: mean of the two
middle elements for even length); `none` for the empty list (pandas `NaN`). -/
def medianQ (l : List ℚ) : Option ℚ :=
  let s := sortQ l
  let n := s.length
  if n = 0 then none
  else if n % 2 = 1 then some (s.getD (n / 2) 0)
  else some ((s.getD (n / 2 - 1) 0 + s.getD (n / 2) 0) / 2)

/-- Model of `Series.median()` on a raw column.  pandas raises a `TypeError` on text
(object dtype) columns — modelled as `none`; an all-missing column has
median `NaN` (`some .na`). -/
def medianVal (vs : List Val) : Option Val :=
  if hasStr vs then none
  else
    match medianQ (numsOf vs) with
    | none => some .na
    | some m => some (.num m)

def charListLE : List Char → List Char → Bool
  | [], _ => true
  | _ :: _, [] => false
  | a :: as, b :: bs =>
    if a.toNat < b.toNat then true
    else if b.toNat < a.toNat then false
    else charListLE as bs

def strLE (a b : String) : Bool := charListLE a.data b.data

/-- Deterministic total order on cell values, used only for the mode
tie-break (pandas sorts the mode candidates and `[0]` takes the least). -/
def valLE : Val → Val → Bool
  | .na, _ => true
  | _, .na => false
  | .num a, .num b => decide (a ≤ b)
  | .num _, .str _ => true
  | .str _, .num _ => false
  | .str a, .str b => strLE a b

def countVal (vs : List Val) (x : Val) : Nat := (vs.filter (fun v => v == x)).length

def modeStep (nn : List Val) (best : Option Val) (v : Val) : Option Val :=
  match best with
  | none => some v
  | some b =>
    if countVal nn v > countVal nn b then some v
    else if countVal nn v == countVal nn b && valLE v b then some v
    else some b

/-- Model of `Series.mode()[0]`: the most frequent non-missing value (least such
value on ties); `none` when no non-missing value exists — in the source
this is the `KeyError` raised by indexing an empty mode list. -/
def modeVal (vs : List Val) : Option Val :=
  let nn := vs.filter (fun v => !(isNA v))
  nn.foldl (modeStep nn) none

/-- Model of `Series.fillna(m)`; filling with `NaN` (`m = .na`) is a no-op,
exactly as in pandas. -/
def fillNA (vs : List Val) (m : Val) : List Val :=
  vs.map (fun v => if isNA v then m else v)

/-- Truncation toward zero of a rational, as `astype(int)` does. -/
def truncQ (q : ℚ) : ℤ := q.num.tdiv q.den

/-- Model of `Series.astype(int)`: fails (`ValueError`) when a missing value (or
text) is present, otherwise truncates every entry toward zero. -/
def astypeInt (vs : List Val) : Option (List Val) :=
  if vs.all isNumV then
    some (vs.map (fun v =>
      match v with
      | .num q => .num ((truncQ q : ℤ) : ℚ)
      | x => x))
  else none

/-- Model of `Series.clip(lo, hi)` on one cell; missing values stay missing. -/
def clipVal (lo hi : ℚ) : Val → Val
  | .num q => .num (max lo (min q hi))
  | v => v

/-- One binary-column cell:
`pd.to_numeric(errors='coerce').fillna(0).astype(int)` followed by
`1 if x > 0 else 0`. -/
def binCoerce (v : Val) : Val :=
  let q : ℚ := match toNum v with | .num q => q | _ => 0
  if truncQ q > 0 then .num 1 else .num 0

def genhlthCodes : List ℚ := [1, 2, 3, 4, 5]

def genhlthLabels : List (String × ℚ) :=
  [("excellent", 1), ("very good", 2), ("good", 3), ("fair", 4), ("poor", 5)]

def educationCodes : List ℚ := [1, 2, 3, 4, 5, 6]

def educationLabels : List (String × ℚ) :=
  [("never attended school or only kindergarten", 1), ("elementary", 2),
   ("middle school", 3), ("high school", 4),
   ("less than 4 years college", 5), ("4 years college or more", 6)]

/-- Model of `Series.map(mapping)` for the ordinal dicts of the source: integer
codes map to themselves, the exact (case-sensitive) label strings map to
their codes, everything else (including missing) becomes missing. -/
def mapWith (codes : List ℚ) (labels : List (String × ℚ)) : Val → Val
  | .num q => if codes.contains q then .num q else .na
  | .str s =>
    match labels.lookup s with
    | some c => .num c
    | none => .na
  | .na => .na

def inRange (lo hi : ℚ) (v : Val) : Bool :=
  match v with
  | .num q => decide (lo ≤ q) && decide (q ≤ hi)
  | _ => false

/-- The source's guard
`df[c].dtype in ['int64','float64'] and df[c].between(lo, hi).all()`:
a numeric dtype is modelled as the absence of text, and `between` is
false on missing values. -/
def alreadyCoded (lo hi : ℚ) (vs : List Val) : Bool :=
  !(hasStr vs) && vs.all (inRange lo hi)

/-- GenHlth / Education column body (lines 74–97 of the source):
skip-and-clip when already coded, otherwise map, coerce, fill with the
post-map mode, truncate to int, clip. -/
def codedColFn (codes : List ℚ) (labels : List (String × ℚ)) (lo hi : ℚ)
    (vs : List Val) : Option (List Val) :=
  if alreadyCoded lo hi vs then some (vs.map (clipVal lo hi))
  else
    let mapped := vs.map (mapWith codes labels)
    match modeVal mapped with
    | none => none
    | some m =>
      match astypeInt (fillNA (mapped.map toNum) m) with
      | none => none
      | some ints => some (ints.map (clipVal lo hi))

def ageLabels : List ℚ := [1, 2, 3, 4, 5, 6, 7, 8, 9, 10, 11, 12, 13]

def incomeLabels : List ℚ := [1, 2, 3, 4, 5, 6, 7, 8]

/-- The bucket of one numeric Age value under `pd.cut` with
`bins=[18,25,30,35,40,45,50,55,60,65,70,75,80,inf]`, `labels=1..13`,
`right=False`: left-inclusive, right-exclusive bins, the last extending
to infinity; values below 18 do not fall in any bin. -/
def ageBin (q : ℚ) : Val :=
  if q < 18 then .na
  else if q < 25 then .num 1
  else if q < 30 then .num 2
  else if q < 35 then .num 3
  else if q < 40 then .num 4
  else if q < 45 then .num 5
  else if q < 50 then .num 6
  else if q < 55 then .num 7
  else if q < 60 then .num 8
  else if q < 65 then .num 9
  else if q < 70 then .num 10
  else if q < 75 then .num 11
  else if q < 80 then .num 12
  else .num 13

/-- Model of `pd.cut` for Age on one cell; missing stays missing. -/
def cutAge : Val → Val
  | .num q => ageBin q
  | v => v

/-- The bucket of one numeric Income value under `pd.cut` with
`bins=[0,10000,15000,20000,25000,35000,50000,75000,inf]`, `labels=1..8`,
`right=False`. -/
def incomeBin (q : ℚ) : Val :=
  if q < 0 then .na
  else if q < 10000 then .num 1
  else if q < 15000 then .num 2
  else if q < 20000 then .num 3
  else if q < 25000 then .num 4
  else if q < 35000 then .num 5
  else if q < 50000 then .num 6
  else if q < 75000 then .num 7
  else .num 8

/-- Model of `pd.cut` for Income on one cell; missing stays missing. -/
def cutIncome : Val → Val
  | .num q => incomeBin q
  | v => v

/-- The imputation value of line 112 of the source:
`df['Age'].median() if not df['Age'].isnull().all() else
age_labels[len(age_labels)//2 - 1]`, evaluated on the already-coerced
column. -/
def ageFillValue (vs : List Val) : Val :=
  if vs.all isNA then .num (ageLabels.getD (ageLabels.length / 2 - 1) 0)
  else
    match medianQ (numsOf vs) with
    | some m => .num m
    | none => .na

/-- The imputation value of line 125 of the source (Income analogue). -/
def incomeFillValue (vs : List Val) : Val :=
  if vs.all isNA then .num (incomeLabels.getD (incomeLabels.length / 2 - 1) 0)
  else
    match medianQ (numsOf vs) with
    | some m => .num m
    | none => .na

/-- Age / Income column body (lines 103–127): skip when already in the
coded range (the trailing strict `pd.to_numeric` is a no-op there),
otherwise coerce, impute, and bucket; the trailing strict `pd.to_numeric`
fails on remaining text. -/
def binnedColFn (lo hi : ℚ) (fillV : List Val → Val) (cut : Val → Val)
    (vs : List Val) : Option (List Val) :=
  if alreadyCoded lo hi vs then
    if hasStr vs then none else some vs
  else
    let coerced := vs.map toNum
    let cutvs := (fillNA coerced (fillV coerced)).map cut
    if hasStr cutvs then none else some cutvs

/-- MentHlth / PhysHlth column body (lines 130–136):
`to_numeric(coerce).fillna(median of the pre-coercion column)` then
`clip(0,30).astype(int)`. -/
def dayColFn (vs : List Val) : Option (List Val) :=
  match medianVal vs with
  | none => none
  | some m => astypeInt ((fillNA (vs.map toNum) m).map (clipVal 0 30))

def numericImputeCols : List String := ["BMI", "MentHlth", "PhysHlth"]

def binaryCols : List String :=
  ["Diabetes_binary", "HighBP", "HighChol", "CholCheck", "Smoker",
   "Stroke", "HeartDiseaseorAttack", "PhysActivity", "Fruits",
   "Veggies", "HvyAlcoholConsump", "AnyHealthcare", "NoDocbcCost",
   "DiffWalk", "Sex"]

/-- The mode-imputed ("Coded/Categorical/Binned") columns of the first
imputation pass and of the final enforcement pass. -/
def modeImputeCols : List String :=
  binaryCols ++ ["GenHlth", "Age", "Education", "Income"]

/-- First imputation pass on one column (lines 21–28). -/
def step1Fn (name : String) (vs : List Val) : Option (List Val) :=
  if numericImputeCols.contains name then
    (medianVal vs).map (fun m => fillNA vs m)
  else if modeImputeCols.contains name then
    (modeVal vs).map (fun m => fillNA vs m)
  else some vs

/-- Final enforcement pass on one column (lines 141–148):
coerce to numeric, then re-impute any missing with mode (coded columns)
or median (others). -/
def finalColFn (name : String) (vs : List Val) : Option (List Val) :=
  let coerced := vs.map toNum
  if coerced.any isNA then
    if modeImputeCols.contains name then
      (modeVal coerced).map (fun m => fillNA coerced m)
    else
      (medianVal coerced).map (fun m => fillNA coerced m)
  else some coerced

def isWSpace (c : Char) : Bool := c == ' ' || c == '\t' || c == '\n' || c == '\r'

/-- Header normalization (line 17):
`df.columns.str.strip().str.replace(' ', '_')`. -/
def canonName (s : String) : String :=
  let cs := (((s.data.dropWhile isWSpace).reverse.dropWhile isWSpace).reverse).map
    (fun c => if c == ' ' then '_' else c)
  String.mk cs

structure Table where
  header : List String
  rows : List (List Val)
deriving DecidableEq

def canonTable (t : Table) : Table := { t with header := t.header.map canonName }

def colVals (t : Table) (k : Nat) : List Val := t.rows.map (fun r => r.getD k Val.na)

def setCol (t : Table) (k : Nat) (vs : List Val) : Table :=
  { t with rows := List.zipWith (fun r v => r.set k v) t.rows vs }

def idxOf? (name : String) : List String → Option Nat
  | [] => none
  | h :: rest => if h = name then some 0 else (idxOf? name rest).map (· + 1)

def colIdx (t : Table) (name : String) : Option Nat := idxOf? name t.header

def updateCol (t : Table) (k : Nat) (f : List Val → Option (List Val)) : Option Table :=
  match f (colVals t k) with
  | none => none
  | some vs => some (setCol t k vs)

/-- Model of `if col in df.columns: df[col] = f(df[col])`. -/
def withCol (t : Table) (name : String) (f : List Val → Option (List Val)) :
    Option Table :=
  match colIdx t name with
  | none => some t
  | some k => updateCol t k f

/-- A pass over the columns at the given indices, applying a per-column
function that may depend on the column name. -/
def colsPass (f : String → List Val → Option (List Val)) :
    Table → List Nat → Option Table
  | t, [] => some t
  | t, k :: ks =>
    match f (t.header.getD k "") (colVals t k) with
    | none => none
    | some vs => colsPass f (setCol t k vs) ks

def step1 (t : Table) : Option Table :=
  colsPass step1Fn t (List.range t.header.length)

def dedupAux (seen : List (List Val)) : List (List Val) → List (List Val)
  | [] => []
  | r :: rest =>
    if r ∈ seen then dedupAux seen rest
    else r :: dedupAux (r :: seen) rest

/-- Model of `df.drop_duplicates()` on the rows: keep the first occurrence of each
row value-tuple, preserving order. -/
def dedupRows (rs : List (List Val)) : List (List Val) := dedupAux [] rs

def dedupStep (t : Table) : Table := { t with rows := dedupRows t.rows }

def binaryPass : Table → List String → Option Table
  | t, [] => some t
  | t, c :: cs =>
    match withCol t c (fun vs => some (vs.map binCoerce)) with
    | none => none
    | some t' => binaryPass t' cs

def genhlthStep (t : Table) : Option Table :=
  withCol t "GenHlth" (codedColFn genhlthCodes genhlthLabels 1 5)

def educationStep (t : Table) : Option Table :=
  withCol t "Education" (codedColFn educationCodes educationLabels 1 6)

def ageStep (t : Table) : Option Table :=
  withCol t "Age" (binnedColFn 1 13 ageFillValue cutAge)

def incomeStep (t : Table) : Option Table :=
  withCol t "Income" (binnedColFn 1 8 incomeFillValue cutIncome)

def mentStep (t : Table) : Option Table := withCol t "MentHlth" dayColFn

def physStep (t : Table) : Option Table := withCol t "PhysHlth" dayColFn

def finalPass (t : Table) : Option Table :=
  colsPass finalColFn t (List.range t.header.length)

/-- The whole engine, `preprocess_survey_data` (lines 5–151):
header normalization, first imputation pass, deduplication, binary
coercion, ordinal remap (GenHlth, Education), ordinal binning (Age,
Income), day-count clipping (MentHlth, PhysHlth), final enforcement pass.
`none` is an uncaught exception of the source. -/
def preprocess_survey_data (t : Table) : Option Table :=
  (step1 (canonTable t)).bind fun t1 =>
  (binaryPass (dedupStep t1) binaryCols).bind fun t2 =>
  (genhlthStep t2).bind fun t3 =>
  (educationStep t3).bind fun t4 =>
  (ageStep t4).bind fun t5 =>
  (incomeStep t5).bind fun t6 =>
  (mentStep t6).bind fun t7 =>
  (physStep t7).bind fun t8 =>
  finalPass t8

/-- Well-formedness: every row has one entry per header name. -/
def WF (t : Table) : Prop := ∀ r ∈ t.rows, r.length = t.header.length

/-- The number of occurrences of a row among a list of rows. -/
def rowCount (rs : List (List Val)) (r : List Val) : Nat :=
  (rs.filter (fun x => decide (x = r))).length

/-- The rational one half (built by the constructor so that kernel
evaluation stays cheap). -/
def oneHalf : ℚ := Rat.mk' 1 2 (by norm_num) (by norm_num)

/-- The rational five halves, i.e. 2.5. -/
def fiveHalves : ℚ := Rat.mk' 5 2 (by norm_num) (by norm_num)

/-- An integer code within a closed range. -/
def intIn (lo hi : ℚ) (q : ℚ) : Bool :=
  (q.den == 1) && decide (lo ≤ q) && decide (q ≤ hi)

/-- One cell satisfies the output invariants of the spec for its column:
numeric; binary columns in 0 or 1; ordinal columns integral and in
range; day-count columns integral in 0..30. -/
def cleanVal (name : String) (v : Val) : Bool :=
  match v with
  | .num q =>
    (!(binaryCols.contains name) || (q == 0 || q == 1)) &&
    (!(name == "GenHlth") || intIn 1 5 q) &&
    (!(name == "Education") || intIn 1 6 q) &&
    (!(name == "Age") || intIn 1 13 q) &&
    (!(name == "Income") || intIn 1 8 q) &&
    (!(name == "MentHlth") || intIn 0 30 q) &&
    (!(name == "PhysHlth") || intIn 0 30 q)
  | _ => false

/-- A table that already satisfies every output invariant of the spec:
all cells numeric and within the column invariants, and no duplicate
rows. -/
def Clean (t : Table) : Prop :=
  (∀ k, k < t.header.length →
    ∀ v ∈ colVals t k, cleanVal (t.header.getD k "") v = true) ∧
  t.rows.Nodup

/-! ### Lemmas about single-cell operations -/

theorem isStr_toNum (v : Val) : isStr (toNum v) = false := by
  cases v with
  | num q => rfl
  | na => rfl
  | str s =>
    simp only [toNum]
    cases parseNumStr s <;> rfl

theorem not_na_not_str {v : Val} (h1 : isNA v = false) (h2 : isStr v = false) :
    ∃ q, v = Val.num q := by
  cases v with
  | num q => exact ⟨q, rfl⟩
  | str s => simp [isStr] at h2
  | na => simp [isNA] at h1

theorem mem_fillNA {vs : List Val} {m v : Val} (h : v ∈ fillNA vs m) :
    v = m ∨ v ∈ vs := by
  simp only [fillNA, List.mem_map] at h
  obtain ⟨w, hw, hv⟩ := h
  by_cases hna : isNA w = true
  · left; rw [← hv, if_pos hna]
  · right; rw [← hv, if_neg hna]; exact hw

theorem fillNA_no_na {vs : List Val} {m : Val} (hm : isNA m = false) :
    ∀ v ∈ fillNA vs m, isNA v = false := by
  intro v hv
  simp only [fillNA, List.mem_map] at hv
  obtain ⟨w, hw, hv⟩ := hv
  by_cases hna : isNA w = true
  · rw [← hv, if_pos hna]; exact hm
  · rw [← hv, if_neg hna]; simpa using hna

theorem fillNA_id {vs : List Val} {m : Val} (h : ∀ v ∈ vs, isNA v = false) :
    fillNA vs m = vs := by
  unfold fillNA
  have h' : ∀ v ∈ vs, (if isNA v then m else v) = id v := by
    intro v hv
    rw [if_neg (by simp [h v hv])]
    rfl
  rw [List.map_congr_left h', List.map_id]

@[simp] theorem length_fillNA (vs : List Val) (m : Val) :
    (fillNA vs m).length = vs.length := by simp [fillNA]

theorem map_id_of_eq {α : Type} {f : α → α} :
    ∀ {l : List α}, (∀ a ∈ l, f a = a) → l.map f = l
  | [], _ => rfl
  | a :: l, h => by
    simp only [List.map_cons]
    rw [h a (by simp), map_id_of_eq (fun b hb => h b (by simp [hb]))]

theorem hasStr_map_toNum (vs : List Val) : hasStr (vs.map toNum) = false := by
  simp [hasStr, List.any_map, Function.comp_def, isStr_toNum]

theorem not_str_of_mem_map_toNum {vs : List Val} {v : Val}
    (h : v ∈ vs.map toNum) : isStr v = false := by
  rw [List.mem_map] at h
  obtain ⟨w, _, rfl⟩ := h
  exact isStr_toNum w

/-! ### Lemmas about mode and median -/

theorem foldl_modeStep_some (nn : List Val) :
    ∀ (l : List Val) (b : Val), ∃ y, l.foldl (modeStep nn) (some b) = some y
  | [], b => ⟨b, rfl⟩
  | v :: l, b => by
    simp only [List.foldl_cons]
    simp only [modeStep]
    by_cases h1 : countVal nn v > countVal nn b
    · rw [if_pos h1]; exact foldl_modeStep_some nn l v
    · rw [if_neg h1]
      by_cases h2 : (countVal nn v == countVal nn b && valLE v b) = true
      · rw [if_pos h2]; exact foldl_modeStep_some nn l v
      · rw [if_neg h2]; exact foldl_modeStep_some nn l b

theorem foldl_modeStep_mem (nn : List Val) :
    ∀ (l : List Val) (acc : Option Val) (y : Val),
      l.foldl (modeStep nn) acc = some y → acc = some y ∨ y ∈ l
  | [], _, _, h => Or.inl h
  | v :: l, acc, y, h => by
    simp only [List.foldl_cons] at h
    have step : modeStep nn acc v = some v ∨ modeStep nn acc v = acc := by
      cases acc with
      | none => exact Or.inl rfl
      | some b =>
        simp only [modeStep]
        by_cases h1 : countVal nn v > countVal nn b
        · rw [if_pos h1]; exact Or.inl rfl
        · rw [if_neg h1]
          by_cases h2 : (countVal nn v == countVal nn b && valLE v b) = true
          · rw [if_pos h2]; exact Or.inl rfl
          · rw [if_neg h2]; exact Or.inr rfl
    rcases foldl_modeStep_mem nn l (modeStep nn acc v) y h with h' | h'
    · rcases step with hs | hs
      · rw [hs] at h'
        right
        rw [← Option.some.inj h']
        exact List.mem_cons_self v l
      · left; rw [← hs]; exact h'
    · right; exact List.mem_cons_of_mem v h'

theorem modeVal_mem {vs : List Val} {m : Val} (h : modeVal vs = some m) :
    m ∈ vs ∧ isNA m = false := by
  simp only [modeVal] at h
  rcases foldl_modeStep_mem _ _ _ _ h with h' | h'
  · exact absurd h' (by simp)
  · rw [List.mem_filter] at h'
    exact ⟨h'.1, by simpa using h'.2⟩

theorem modeVal_isSome {vs : List Val}
    (h : vs.filter (fun v => !(isNA v)) ≠ []) : ∃ m, modeVal vs = some m := by
  simp only [modeVal]
  cases hnn : vs.filter (fun v => !(isNA v)) with
  | nil => exact absurd hnn h
  | cons v l =>
    simp only [List.foldl_cons]
    have : modeStep (v :: l) none v = some v := rfl
    rw [this]
    exact foldl_modeStep_some (v :: l) l v

theorem modeVal_none_of_all_na {vs : List Val}
    (h : vs.filter (fun v => !(isNA v)) = []) : modeVal vs = none := by
  simp only [modeVal, h, List.foldl_nil]

theorem medianVal_isSome {vs : List Val} (h : hasStr vs = false) :
    ∃ m, medianVal vs = some m ∧ (m = .na ∨ ∃ q, m = .num q) := by
  unfold medianVal
  rw [if_neg (by simp [h])]
  cases medianQ (numsOf vs) with
  | none => exact ⟨.na, rfl, Or.inl rfl⟩
  | some q => exact ⟨.num q, rfl, Or.inr ⟨q, rfl⟩⟩

theorem medianVal_cases {vs : List Val} {m : Val} (h : medianVal vs = some m) :
    m = .na ∨ ∃ q, m = .num q := by
  unfold medianVal at h
  by_cases hs : hasStr vs = true
  · rw [if_pos hs] at h; exact absurd h (by simp)
  · rw [if_neg hs] at h
    cases hq : medianQ (numsOf vs) with
    | none => rw [hq] at h; exact Or.inl (Option.some.inj h).symm
    | some q => rw [hq] at h; exact Or.inr ⟨q, (Option.some.inj h).symm⟩

/-! ### Lemmas about truncation and clipping -/

theorem truncQ_eq_floor {q : ℚ} (h : 0 ≤ q) : truncQ q = ⌊q⌋ := by
  rw [truncQ, Rat.floor_def]
  exact Int.tdiv_eq_ediv (Rat.num_nonneg.mpr h) (Int.natCast_nonneg q.den)

theorem truncQ_neg (q : ℚ) : truncQ (-q) = -(truncQ q) := by
  unfold truncQ
  rw [Rat.neg_num, Rat.neg_den, Int.neg_tdiv]

theorem truncQ_pos_iff {q : ℚ} : 0 < truncQ q ↔ 1 ≤ q := by
  by_cases h : 0 ≤ q
  · rw [truncQ_eq_floor h, Int.lt_iff_add_one_le, zero_add, Int.le_floor, Int.cast_one]
  · push_neg at h
    have hq : truncQ q = -(truncQ (-q)) := by rw [truncQ_neg, neg_neg]
    have h0 : (0 : ℤ) ≤ truncQ (-q) := by
      rw [truncQ_eq_floor (by linarith)]
      exact Int.floor_nonneg.mpr (by linarith)
    constructor
    · intro h1; rw [hq] at h1; omega
    · intro h1; linarith

theorem truncQ_intCast_of_den_one {q : ℚ} (h : q.den = 1) :
    ((truncQ q : ℤ) : ℚ) = q := by
  have h' : truncQ q = q.num := by unfold truncQ; rw [h]; simp
  rw [h']
  exact (Rat.den_eq_one_iff q).mp h

theorem truncQ_nonneg {q : ℚ} (h : 0 ≤ q) : (0 : ℤ) ≤ truncQ q := by
  rw [truncQ_eq_floor h]
  exact Int.floor_nonneg.mpr h

theorem truncQ_le {q z : ℚ} (h0 : 0 ≤ q) (h : q ≤ z) : ((truncQ q : ℤ) : ℚ) ≤ z := by
  rw [truncQ_eq_floor h0]
  exact le_trans (Int.floor_le q) h

theorem clipVal_num_range {lo hi q : ℚ} (hlh : lo ≤ hi) :
    ∃ q', clipVal lo hi (.num q) = .num q' ∧ lo ≤ q' ∧ q' ≤ hi :=
  ⟨max lo (min q hi), rfl, le_max_left _ _, max_le hlh (min_le_right _ _)⟩

theorem clipVal_num_id {lo hi q : ℚ} (h1 : lo ≤ q) (h2 : q ≤ hi) :
    clipVal lo hi (.num q) = .num q := by
  simp only [clipVal]
  rw [min_eq_left h2, max_eq_right h1]

/-! ### Lemmas about row indexing and column update -/

theorem getD_set_self : ∀ (r : List Val) (k : Nat) (v : Val), k < r.length →
    (r.set k v).getD k Val.na = v
  | [], _, _, h => absurd h (by simp)
  | _ :: _, 0, _, _ => rfl
  | _ :: r, k + 1, v, h => getD_set_self r k v (by simpa using h)

theorem getD_set_other : ∀ (r : List Val) (j k : Nat) (v : Val), j ≠ k →
    (r.set j v).getD k Val.na = r.getD k Val.na
  | [], _, _, _, _ => rfl
  | _ :: _, 0, 0, _, h => absurd rfl h
  | _ :: _, 0, _ + 1, _, _ => rfl
  | _ :: _, _ + 1, 0, _, _ => rfl
  | _ :: r, j + 1, k + 1, v, h => getD_set_other r j k v (fun hh => h (by rw [hh]))

theorem set_getD_self : ∀ (r : List Val) (k : Nat), k < r.length →
    r.set k (r.getD k Val.na) = r
  | [], _, h => absurd h (by simp)
  | _ :: _, 0, _ => rfl
  | a :: r, k + 1, h => by
    simp only [List.getD_cons_succ, List.set_cons_succ]
    rw [set_getD_self r k (by simpa using h)]

theorem header_setCol (t : Table) (k : Nat) (vs : List Val) :
    (setCol t k vs).header = t.header := rfl

@[simp] theorem colVals_length (t : Table) (k : Nat) :
    (colVals t k).length = t.rows.length := by simp [colVals]

theorem mem_zipWith_set {rows : List (List Val)} {vs : List Val} {k : Nat}
    {r' : List Val}
    (h : r' ∈ List.zipWith (fun r v => r.set k v) rows vs) :
    ∃ r ∈ rows, ∃ v, r' = r.set k v := by
  induction rows generalizing vs with
  | nil => simp at h
  | cons a rows ih =>
    cases vs with
    | nil => simp at h
    | cons v vs =>
      simp only [List.zipWith_cons_cons] at h
      rcases List.mem_cons.mp h with h | h
      · exact ⟨a, by simp, v, h⟩
      · obtain ⟨r, hr, w, hw⟩ := ih h
        exact ⟨r, by simp [hr], w, hw⟩

theorem WF_setCol {t : Table} {k : Nat} {vs : List Val} (hwf : WF t) :
    WF (setCol t k vs) := by
  intro r hr
  obtain ⟨r0, hr0, v, rfl⟩ := mem_zipWith_set hr
  simpa using hwf r0 hr0

theorem rows_length_setCol {t : Table} {k : Nat} {vs : List Val}
    (h : vs.length = t.rows.length) :
    (setCol t k vs).rows.length = t.rows.length := by
  simp [setCol, List.length_zipWith, h]

theorem map_getD_zipWith_set_self :
    ∀ (rows : List (List Val)) (vs : List Val) (k : Nat),
      vs.length = rows.length → (∀ r ∈ rows, k < r.length) →
      (List.zipWith (fun r v => r.set k v) rows vs).map
          (fun r => r.getD k Val.na) = vs
  | [], [], _, _, _ => rfl
  | [], _ :: _, _, h, _ => absurd h (by simp)
  | _ :: _, [], _, h, _ => absurd h (by simp)
  | r :: rows, v :: vs, k, h, hk => by
    simp only [List.zipWith_cons_cons, List.map_cons]
    rw [getD_set_self r k v (hk r (by simp)),
      map_getD_zipWith_set_self rows vs k (by simpa using h)
        (fun r' hr' => hk r' (by simp [hr']))]

theorem map_getD_zipWith_set_other :
    ∀ (rows : List (List Val)) (vs : List Val) (j k : Nat), j ≠ k →
      vs.length = rows.length →
      (List.zipWith (fun r v => r.set j v) rows vs).map
          (fun r => r.getD k Val.na)
        = rows.map (fun r => r.getD k Val.na)
  | [], [], _, _, _, _ => rfl
  | [], _ :: _, _, _, _, h => absurd h (by simp)
  | _ :: _, [], _, _, _, h => absurd h (by simp)
  | r :: rows, v :: vs, j, k, hjk, h => by
    simp only [List.zipWith_cons_cons, List.map_cons]
    rw [getD_set_other r j k v hjk,
      map_getD_zipWith_set_other rows vs j k hjk (by simpa using h)]

theorem colVals_setCol_self {t : Table} {k : Nat} {vs : List Val}
    (hlen : vs.length = t.rows.length) (hk : ∀ r ∈ t.rows, k < r.length) :
    colVals (setCol t k vs) k = vs :=
  map_getD_zipWith_set_self t.rows vs k hlen hk

theorem colVals_setCol_other {t : Table} {j k : Nat} {vs : List Val}
    (hjk : j ≠ k) (hlen : vs.length = t.rows.length) :
    colVals (setCol t j vs) k = colVals t k :=
  map_getD_zipWith_set_other t.rows vs j k hjk hlen

theorem setCol_colVals_self {t : Table} {k : Nat} (hk : ∀ r ∈ t.rows, k < r.length) :
    setCol t k (colVals t k) = t := by
  unfold setCol colVals
  have : ∀ rows : List (List Val), (∀ r ∈ rows, k < r.length) →
      List.zipWith (fun r v => r.set k v) rows
          (rows.map (fun r => r.getD k Val.na)) = rows := by
    intro rows
    induction rows with
    | nil => intro _; rfl
    | cons a rows ih =>
      intro hr
      simp only [List.map_cons, List.zipWith_cons_cons]
      rw [set_getD_self a k (hr a (by simp)), ih (fun r h => hr r (by simp [h]))]
  cases t with
  | mk header rows => simp only [this rows hk]

/-! ### Lemmas about column lookup by name -/

theorem idxOf?_mem : ∀ {l : List String} {name : String} {k : Nat},
    idxOf? name l = some k → k < l.length ∧ l.getD k "" = name := by
  intro l
  induction l with
  | nil => intro name k h; simp [idxOf?] at h
  | cons a l ih =>
    intro name k h
    simp only [idxOf?] at h
    by_cases ha : a = name
    · rw [if_pos ha] at h
      rw [← Option.some.inj h]
      exact ⟨by simp, ha⟩
    · rw [if_neg ha] at h
      rw [Option.map_eq_some'] at h
      obtain ⟨k', hk', rfl⟩ := h
      obtain ⟨h1, h2⟩ := ih hk'
      exact ⟨by simpa using h1, h2⟩

theorem idxOf?_of_getD : ∀ {l : List String}, l.Nodup → ∀ {k : Nat},
    k < l.length → ∀ {name : String}, l.getD k "" = name →
    idxOf? name l = some k := by
  intro l
  induction l with
  | nil => intro _ k h; simp at h
  | cons a l ih =>
    intro hnd k hk name hname
    cases k with
    | zero =>
      simp only [List.getD_cons_zero] at hname
      simp only [idxOf?, if_pos hname]
    | succ k =>
      simp only [List.getD_cons_succ] at hname
      have hmem : name ∈ l := by
        rw [← hname]
        have hk' : k < l.length := by simpa using hk
        rw [List.getD_eq_getElem l "" hk']
        exact List.getElem_mem hk'
      have hne : a ≠ name := fun h => (List.nodup_cons.mp hnd).1 (h ▸ hmem)
      simp only [idxOf?, if_neg hne,
        ih (List.nodup_cons.mp hnd).2 (by simpa using hk) hname]
      rfl

theorem idxOf?_none_not_mem : ∀ {l : List String} {name : String},
    idxOf? name l = none → name ∉ l := by
  intro l
  induction l with
  | nil => intro name _; simp
  | cons a l ih =>
    intro name h
    simp only [idxOf?] at h
    by_cases ha : a = name
    · rw [if_pos ha] at h; exact absurd h (by simp)
    · rw [if_neg ha] at h
      intro hmem
      rcases List.mem_cons.mp hmem with h' | h'
      · exact ha h'.symm
      · exact ih (by simpa using h) h'

theorem withCol_spec {t : Table} {name : String}
    {f : List Val → Option (List Val)} {t' : Table}
    (h : withCol t name f = some t') :
    (colIdx t name = none ∧ t' = t) ∨
      ∃ k vs', colIdx t name = some k ∧ f (colVals t k) = some vs' ∧
        t' = setCol t k vs' := by
  unfold withCol at h
  cases hidx : colIdx t name with
  | none =>
    rw [hidx] at h
    exact Or.inl ⟨rfl, (Option.some.inj h).symm⟩
  | some k =>
    rw [hidx] at h
    have h' : (match f (colVals t k) with
        | none => (none : Option Table)
        | some vs => some (setCol t k vs)) = some t' := h
    cases hf : f (colVals t k) with
    | none => rw [hf] at h'; exact absurd h' (by simp)
    | some vs' =>
      rw [hf] at h'
      exact Or.inr ⟨k, vs', rfl, hf, (Option.some.inj h').symm⟩

/-! ### Characterizations and length preservation of the column bodies -/

theorem astypeInt_length {vs vs' : List Val} (h : astypeInt vs = some vs') :
    vs'.length = vs.length := by
  unfold astypeInt at h
  by_cases hall : vs.all isNumV = true
  · rw [if_pos hall] at h
    rw [← Option.some.inj h]
    simp
  · rw [if_neg hall] at h
    exact absurd h (by simp)

theorem step1Fn_length {n : String} {vs vs' : List Val}
    (h : step1Fn n vs = some vs') : vs'.length = vs.length := by
  unfold step1Fn at h
  split at h
  · rw [Option.map_eq_some'] at h
    obtain ⟨m, _, rfl⟩ := h
    simp
  · split at h
    · rw [Option.map_eq_some'] at h
      obtain ⟨m, _, rfl⟩ := h
      simp
    · rw [← Option.some.inj h]

theorem codedColFn_eq (codes : List ℚ) (labels : List (String × ℚ)) (lo hi : ℚ)
    (vs : List Val) :
    codedColFn codes labels lo hi vs =
      if alreadyCoded lo hi vs then some (vs.map (clipVal lo hi))
      else
        (modeVal (vs.map (mapWith codes labels))).bind fun m =>
          (astypeInt (fillNA ((vs.map (mapWith codes labels)).map toNum) m)).map
            fun ints => ints.map (clipVal lo hi) := by
  simp only [codedColFn]
  split
  · rfl
  · cases modeVal (vs.map (mapWith codes labels)) with
    | none => rfl
    | some m =>
      show (match astypeInt (fillNA ((vs.map (mapWith codes labels)).map toNum) m) with
        | none => (none : Option (List Val))
        | some ints => some (ints.map (clipVal lo hi))) =
        (astypeInt (fillNA ((vs.map (mapWith codes labels)).map toNum) m)).map
          (fun ints => ints.map (clipVal lo hi))
      cases astypeInt (fillNA ((vs.map (mapWith codes labels)).map toNum) m) with
      | none => rfl
      | some ints => rfl

theorem codedColFn_length {codes : List ℚ} {labels : List (String × ℚ)}
    {lo hi : ℚ} {vs vs' : List Val}
    (h : codedColFn codes labels lo hi vs = some vs') : vs'.length = vs.length := by
  rw [codedColFn_eq] at h
  split at h
  · rw [← Option.some.inj h]; simp
  · rw [Option.bind_eq_some] at h
    obtain ⟨m, _, h⟩ := h
    rw [Option.map_eq_some'] at h
    obtain ⟨ints, hints, rfl⟩ := h
    simp only [List.length_map]
    rw [astypeInt_length hints]
    simp

theorem binnedColFn_eq (lo hi : ℚ) (fillV : List Val → Val) (cut : Val → Val)
    (vs : List Val) :
    binnedColFn lo hi fillV cut vs =
      if alreadyCoded lo hi vs then
        if hasStr vs then none else some vs
      else
        if hasStr ((fillNA (vs.map toNum) (fillV (vs.map toNum))).map cut) then none
        else some ((fillNA (vs.map toNum) (fillV (vs.map toNum))).map cut) := by
  simp only [binnedColFn]

theorem binnedColFn_length {lo hi : ℚ} {fillV : List Val → Val} {cut : Val → Val}
    {vs vs' : List Val} (h : binnedColFn lo hi fillV cut vs = some vs') :
    vs'.length = vs.length := by
  rw [binnedColFn_eq] at h
  split at h
  · split at h
    · exact absurd h (by simp)
    · rw [← Option.some.inj h]
  · split at h
    · exact absurd h (by simp)
    · rw [← Option.some.inj h]; simp

theorem dayColFn_eq (vs : List Val) :
    dayColFn vs =
      (medianVal vs).bind fun m =>
        astypeInt ((fillNA (vs.map toNum) m).map (clipVal 0 30)) := by
  unfold dayColFn
  cases medianVal vs with
  | none => rfl
  | some m => rfl

theorem dayColFn_length {vs vs' : List Val} (h : dayColFn vs = some vs') :
    vs'.length = vs.length := by
  rw [dayColFn_eq, Option.bind_eq_some] at h
  obtain ⟨m, _, h⟩ := h
  simpa using astypeInt_length h

theorem finalColFn_eq (n : String) (vs : List Val) :
    finalColFn n vs =
      if (vs.map toNum).any isNA then
        if modeImputeCols.contains n then
          (modeVal (vs.map toNum)).map (fun m => fillNA (vs.map toNum) m)
        else
          (medianVal (vs.map toNum)).map (fun m => fillNA (vs.map toNum) m)
      else some (vs.map toNum) := by
  simp only [finalColFn]

theorem finalColFn_length {n : String} {vs vs' : List Val}
    (h : finalColFn n vs = some vs') : vs'.length = vs.length := by
  rw [finalColFn_eq] at h
  split at h
  · split at h <;>
      · rw [Option.map_eq_some'] at h
        obtain ⟨m, _, rfl⟩ := h
        simp
  · rw [← Option.some.inj h]; simp

/-! ### The generic column pass -/

theorem colsPass_spec {f : String → List Val → Option (List Val)}
    (hlen : ∀ n vs vs', f n vs = some vs' → vs'.length = vs.length) :
    ∀ (ks : List Nat) (t t' : Table), colsPass f t ks = some t' →
      WF t → (∀ k ∈ ks, k < t.header.length) → ks.Nodup →
      t'.header = t.header ∧ t'.rows.length = t.rows.length ∧ WF t' ∧
        (∀ k, k ∉ ks → colVals t' k = colVals t k) ∧
        (∀ k ∈ ks, ∃ vs', f (t.header.getD k "") (colVals t k) = some vs' ∧
          colVals t' k = vs') := by
  intro ks
  induction ks with
  | nil =>
    intro t t' h hwf _ _
    have heq : t = t' := Option.some.inj h
    subst heq
    exact ⟨rfl, rfl, hwf, fun _ _ => rfl, fun k hk => absurd hk (by simp)⟩
  | cons k ks ih =>
    intro t t' h hwf hbnd hnd
    have h1 : (match f (t.header.getD k "") (colVals t k) with
        | none => (none : Option Table)
        | some vs => colsPass f (setCol t k vs) ks) = some t' := h
    cases hf : f (t.header.getD k "") (colVals t k) with
    | none => rw [hf] at h1; exact absurd h1 (by simp)
    | some vs =>
      rw [hf] at h1
      have hvslen : vs.length = t.rows.length := by
        rw [hlen _ _ _ hf]; simp
      have hklt : k < t.header.length := hbnd k (by simp)
      have hkr : ∀ r ∈ t.rows, k < r.length := fun r hr => by
        rw [hwf r hr]; exact hklt
      have hwf' : WF (setCol t k vs) := WF_setCol hwf
      have hbnd' : ∀ j ∈ ks, j < (setCol t k vs).header.length := by
        intro j hj
        rw [header_setCol]
        exact hbnd j (by simp [hj])
      have hnd' := (List.nodup_cons.mp hnd).2
      have hknotin := (List.nodup_cons.mp hnd).1
      obtain ⟨hh, hrl, hwf'', huntouched, hproc⟩ :=
        ih (setCol t k vs) t' h1 hwf' hbnd' hnd'
      refine ⟨?_, ?_, hwf'', ?_, ?_⟩
      · rw [hh, header_setCol]
      · rw [hrl, rows_length_setCol hvslen]
      · intro j hj
        have hjk : k ≠ j := fun hh' => hj (hh' ▸ List.mem_cons_self k ks)
        have hjks : j ∉ ks := fun hh' => hj (List.mem_cons_of_mem _ hh')
        rw [huntouched j hjks, colVals_setCol_other hjk hvslen]
      · intro j hj
        rcases List.mem_cons.mp hj with rfl | hj'
        · refine ⟨vs, hf, ?_⟩
          rw [huntouched j hknotin, colVals_setCol_self hvslen hkr]
        · have hjk : k ≠ j := fun hh' => hknotin (hh' ▸ hj')
          obtain ⟨vs', hvs', hcv⟩ := hproc j hj'
          refine ⟨vs', ?_, hcv⟩
          rw [← colVals_setCol_other hjk hvslen]
          exact hvs'

/-! ### Deduplication lemmas -/

theorem dedupAux_sublist : ∀ (seen : List (List Val)) (l : List (List Val)),
    (dedupAux seen l).Sublist l
  | _, [] => List.Sublist.refl []
  | seen, r :: rest => by
    simp only [dedupAux]
    by_cases h : r ∈ seen
    · rw [if_pos h]
      exact (dedupAux_sublist seen rest).cons r
    · rw [if_neg h]
      exact (dedupAux_sublist (r :: seen) rest).cons₂ r

theorem mem_dedupAux : ∀ {seen l : List (List Val)} {r : List Val},
    r ∈ dedupAux seen l ↔ r ∈ l ∧ r ∉ seen := by
  intro seen l
  induction l generalizing seen with
  | nil => intro r; simp [dedupAux]
  | cons a l ih =>
    intro r
    simp only [dedupAux]
    by_cases h : a ∈ seen
    · rw [if_pos h, ih]
      constructor
      · rintro ⟨h1, h2⟩
        exact ⟨List.mem_cons_of_mem a h1, h2⟩
      · rintro ⟨h1, h2⟩
        rcases List.mem_cons.mp h1 with rfl | h1'
        · exact absurd h h2
        · exact ⟨h1', h2⟩
    · rw [if_neg h]
      constructor
      · intro hm
        rcases List.mem_cons.mp hm with rfl | hm'
        · exact ⟨List.mem_cons_self r l, h⟩
        · rw [ih] at hm'
          obtain ⟨h1, h2⟩ := hm'
          exact ⟨List.mem_cons_of_mem a h1,
            fun hs => h2 (List.mem_cons_of_mem a hs)⟩
      · rintro ⟨h1, h2⟩
        rcases List.mem_cons.mp h1 with rfl | h1'
        · exact List.mem_cons_self r _
        · by_cases hra : r = a
          · subst hra
            exact List.mem_cons_self r _
          · apply List.mem_cons_of_mem
            rw [ih]
            refine ⟨h1', fun hs => ?_⟩
            rcases List.mem_cons.mp hs with h' | h'
            · exact hra h'
            · exact h2 h'

theorem nodup_dedupAux : ∀ (seen l : List (List Val)), (dedupAux seen l).Nodup
  | _, [] => List.nodup_nil
  | seen, a :: l => by
    simp only [dedupAux]
    by_cases h : a ∈ seen
    · rw [if_pos h]
      exact nodup_dedupAux seen l
    · rw [if_neg h, List.nodup_cons]
      refine ⟨fun hmem => ?_, nodup_dedupAux (a :: seen) l⟩
      rw [mem_dedupAux] at hmem
      exact hmem.2 (List.mem_cons_self a seen)

theorem dedupAux_eq_self : ∀ {l seen : List (List Val)}, l.Nodup →
    (∀ r ∈ l, r ∉ seen) → dedupAux seen l = l := by
  intro l
  induction l with
  | nil => intro seen _ _; rfl
  | cons a l ih =>
    intro seen hnd hdis
    simp only [dedupAux]
    rw [if_neg (hdis a (by simp))]
    have hrec : dedupAux (a :: seen) l = l := by
      apply ih (List.nodup_cons.mp hnd).2
      intro r hr hs
      rcases List.mem_cons.mp hs with h' | h'
      · exact (List.nodup_cons.mp hnd).1 (h' ▸ hr)
      · exact hdis r (by simp [hr]) h'
    rw [hrec]

theorem mem_dedupRows {rs : List (List Val)} {r : List Val} :
    r ∈ dedupRows rs ↔ r ∈ rs := by
  unfold dedupRows
  rw [mem_dedupAux]
  simp

theorem length_filter_eq_one_of_nodup : ∀ {l : List (List Val)} {r : List Val},
    l.Nodup → r ∈ l → (l.filter (fun x => decide (x = r))).length = 1 := by
  intro l
  induction l with
  | nil => intro r _ h; simp at h
  | cons a l ih =>
    intro r hnd hm
    by_cases har : a = r
    · subst har
      have hnotin := (List.nodup_cons.mp hnd).1
      have hfil : l.filter (fun x => decide (x = a)) = [] := by
        rw [List.filter_eq_nil_iff]
        intro x hx
        simp only [decide_eq_true_eq]
        exact fun hxa => hnotin (hxa ▸ hx)
      simp [List.filter_cons, hfil]
    · have hm' : r ∈ l := by
        rcases List.mem_cons.mp hm with h' | h'
        · exact absurd h'.symm har
        · exact h'
      rw [List.filter_cons]
      rw [if_neg (by simpa using har)]
      exact ih (List.nodup_cons.mp hnd).2 hm'

theorem dedupRows_count {rs : List (List Val)} {r : List Val} (h : r ∈ rs) :
    rowCount (dedupRows rs) r = 1 :=
  length_filter_eq_one_of_nodup (nodup_dedupAux [] rs)
    (mem_dedupAux.mpr ⟨h, by simp⟩)

/-! ### Value-range facts about the column bodies -/

theorem astypeInt_some {xs ys : List Val} (h : astypeInt xs = some ys) :
    xs.all isNumV = true ∧
      ys = xs.map (fun v => match v with
        | .num q => .num ((truncQ q : ℤ) : ℚ)
        | x => x) := by
  unfold astypeInt at h
  by_cases hall : xs.all isNumV = true
  · rw [if_pos hall] at h
    exact ⟨hall, (Option.some.inj h).symm⟩
  · rw [if_neg hall] at h
    exact absurd h (by simp)

theorem inRange_true {lo hi : ℚ} {v : Val} (h : inRange lo hi v = true) :
    ∃ q, v = .num q ∧ lo ≤ q ∧ q ≤ hi := by
  cases v with
  | num q =>
    simp only [inRange, Bool.and_eq_true, decide_eq_true_eq] at h
    exact ⟨q, rfl, h.1, h.2⟩
  | str s => simp [inRange] at h
  | na => simp [inRange] at h

theorem alreadyCoded_vals {lo hi : ℚ} {vs : List Val}
    (h : alreadyCoded lo hi vs = true) :
    ∀ v ∈ vs, ∃ q, v = .num q ∧ lo ≤ q ∧ q ≤ hi := by
  intro v hv
  unfold alreadyCoded at h
  rw [Bool.and_eq_true, List.all_eq_true] at h
  exact inRange_true (h.2 v hv)

theorem binCoerce_range (v : Val) :
    binCoerce v = .num 0 ∨ binCoerce v = .num 1 := by
  simp only [binCoerce]
  split
  · exact Or.inr rfl
  · exact Or.inl rfl

theorem codedColFn_range {codes : List ℚ} {labels : List (String × ℚ)}
    {lo hi : ℚ} {vs vs' : List Val} (hlh : lo ≤ hi)
    (h : codedColFn codes labels lo hi vs = some vs') :
    ∀ v ∈ vs', ∃ q, v = .num q ∧ lo ≤ q ∧ q ≤ hi := by
  intro v hv
  rw [codedColFn_eq] at h
  split at h
  · rename_i hcoded
    rw [← Option.some.inj h] at hv
    rw [List.mem_map] at hv
    obtain ⟨w, hw, rfl⟩ := hv
    obtain ⟨q, rfl, _, _⟩ := alreadyCoded_vals hcoded w hw
    exact clipVal_num_range hlh
  · rw [Option.bind_eq_some] at h
    obtain ⟨m, _, h⟩ := h
    rw [Option.map_eq_some'] at h
    obtain ⟨ints, hints, rfl⟩ := h
    rw [List.mem_map] at hv
    obtain ⟨w, hw, rfl⟩ := hv
    obtain ⟨_, hmap⟩ := astypeInt_some hints
    rw [hmap, List.mem_map] at hw
    obtain ⟨x, hx, rfl⟩ := hw
    cases x with
    | num q => exact clipVal_num_range hlh
    | str s =>
      have := (astypeInt_some hints).1
      rw [List.all_eq_true] at this
      exact absurd (this _ hx) (by simp [isNumV])
    | na =>
      have := (astypeInt_some hints).1
      rw [List.all_eq_true] at this
      exact absurd (this _ hx) (by simp [isNumV])

theorem cutAge_num (q : ℚ) : cutAge (.num q) = ageBin q := rfl

theorem cutIncome_num (q : ℚ) : cutIncome (.num q) = incomeBin q := rfl

theorem ageBin_range (q : ℚ) :
    ageBin q = .na ∨ ∃ c, ageBin q = .num c ∧ 1 ≤ c ∧ c ≤ 13 := by
  unfold ageBin
  by_cases h1 : q < 18
  · rw [if_pos h1]; exact Or.inl rfl
  rw [if_neg h1]
  by_cases h2 : q < 25
  · rw [if_pos h2]; exact Or.inr ⟨1, rfl, by norm_num, by norm_num⟩
  rw [if_neg h2]
  by_cases h3 : q < 30
  · rw [if_pos h3]; exact Or.inr ⟨2, rfl, by norm_num, by norm_num⟩
  rw [if_neg h3]
  by_cases h4 : q < 35
  · rw [if_pos h4]; exact Or.inr ⟨3, rfl, by norm_num, by norm_num⟩
  rw [if_neg h4]
  by_cases h5 : q < 40
  · rw [if_pos h5]; exact Or.inr ⟨4, rfl, by norm_num, by norm_num⟩
  rw [if_neg h5]
  by_cases h6 : q < 45
  · rw [if_pos h6]; exact Or.inr ⟨5, rfl, by norm_num, by norm_num⟩
  rw [if_neg h6]
  by_cases h7 : q < 50
  · rw [if_pos h7]; exact Or.inr ⟨6, rfl, by norm_num, by norm_num⟩
  rw [if_neg h7]
  by_cases h8 : q < 55
  · rw [if_pos h8]; exact Or.inr ⟨7, rfl, by norm_num, by norm_num⟩
  rw [if_neg h8]
  by_cases h9 : q < 60
  · rw [if_pos h9]; exact Or.inr ⟨8, rfl, by norm_num, by norm_num⟩
  rw [if_neg h9]
  by_cases h10 : q < 65
  · rw [if_pos h10]; exact Or.inr ⟨9, rfl, by norm_num, by norm_num⟩
  rw [if_neg h10]
  by_cases h11 : q < 70
  · rw [if_pos h11]; exact Or.inr ⟨10, rfl, by norm_num, by norm_num⟩
  rw [if_neg h11]
  by_cases h12 : q < 75
  · rw [if_pos h12]; exact Or.inr ⟨11, rfl, by norm_num, by norm_num⟩
  rw [if_neg h12]
  by_cases h13 : q < 80
  · rw [if_pos h13]; exact Or.inr ⟨12, rfl, by norm_num, by norm_num⟩
  rw [if_neg h13]
  exact Or.inr ⟨13, rfl, by norm_num, by norm_num⟩

theorem incomeBin_range (q : ℚ) :
    incomeBin q = .na ∨ ∃ c, incomeBin q = .num c ∧ 1 ≤ c ∧ c ≤ 8 := by
  unfold incomeBin
  by_cases h1 : q < 0
  · rw [if_pos h1]; exact Or.inl rfl
  rw [if_neg h1]
  by_cases h2 : q < 10000
  · rw [if_pos h2]; exact Or.inr ⟨1, rfl, by norm_num, by norm_num⟩
  rw [if_neg h2]
  by_cases h3 : q < 15000
  · rw [if_pos h3]; exact Or.inr ⟨2, rfl, by norm_num, by norm_num⟩
  rw [if_neg h3]
  by_cases h4 : q < 20000
  · rw [if_pos h4]; exact Or.inr ⟨3, rfl, by norm_num, by norm_num⟩
  rw [if_neg h4]
  by_cases h5 : q < 25000
  · rw [if_pos h5]; exact Or.inr ⟨4, rfl, by norm_num, by norm_num⟩
  rw [if_neg h5]
  by_cases h6 : q < 35000
  · rw [if_pos h6]; exact Or.inr ⟨5, rfl, by norm_num, by norm_num⟩
  rw [if_neg h6]
  by_cases h7 : q < 50000
  · rw [if_pos h7]; exact Or.inr ⟨6, rfl, by norm_num, by norm_num⟩
  rw [if_neg h7]
  by_cases h8 : q < 75000
  · rw [if_pos h8]; exact Or.inr ⟨7, rfl, by norm_num, by norm_num⟩
  rw [if_neg h8]
  exact Or.inr ⟨8, rfl, by norm_num, by norm_num⟩

theorem cutAge_range (v : Val) (h : isStr v = false) :
    cutAge v = .na ∨ ∃ q, cutAge v = .num q ∧ 1 ≤ q ∧ q ≤ 13 := by
  cases v with
  | str s => simp [isStr] at h
  | na => exact Or.inl rfl
  | num q => rw [cutAge_num]; exact ageBin_range q

theorem cutIncome_range (v : Val) (h : isStr v = false) :
    cutIncome v = .na ∨ ∃ q, cutIncome v = .num q ∧ 1 ≤ q ∧ q ≤ 8 := by
  cases v with
  | str s => simp [isStr] at h
  | na => exact Or.inl rfl
  | num q => rw [cutIncome_num]; exact incomeBin_range q

theorem ageFillValue_not_str (xs : List Val) : isStr (ageFillValue xs) = false := by
  unfold ageFillValue
  split
  · rfl
  · cases medianQ (numsOf xs) <;> rfl

theorem incomeFillValue_not_str (xs : List Val) :
    isStr (incomeFillValue xs) = false := by
  unfold incomeFillValue
  split
  · rfl
  · cases medianQ (numsOf xs) <;> rfl

theorem binnedColFn_range {lo hi : ℚ} {fillV : List Val → Val} {cut : Val → Val}
    {vs vs' : List Val}
    (hfv : ∀ xs, isStr (fillV xs) = false)
    (hcut : ∀ v, isStr v = false →
      cut v = .na ∨ ∃ q, cut v = .num q ∧ lo ≤ q ∧ q ≤ hi)
    (h : binnedColFn lo hi fillV cut vs = some vs') :
    ∀ v ∈ vs', v = .na ∨ ∃ q, v = .num q ∧ lo ≤ q ∧ q ≤ hi := by
  intro v hv
  rw [binnedColFn_eq] at h
  split at h
  · rename_i hcoded
    split at h
    · exact absurd h (by simp)
    · rw [← Option.some.inj h] at hv
      obtain ⟨q, rfl, h1, h2⟩ := alreadyCoded_vals hcoded v hv
      exact Or.inr ⟨q, rfl, h1, h2⟩
  · split at h
    · exact absurd h (by simp)
    · rw [← Option.some.inj h] at hv
      rw [List.mem_map] at hv
      obtain ⟨w, hw, rfl⟩ := hv
      apply hcut
      rcases mem_fillNA hw with rfl | hw'
      · exact hfv _
      · exact not_str_of_mem_map_toNum hw'

theorem ageBin_Ico_40_45 {q : ℚ} (h1 : 40 ≤ q) (h2 : q < 45) :
    ageBin q = .num 5 := by
  unfold ageBin
  rw [if_neg (by linarith), if_neg (by linarith), if_neg (by linarith),
    if_neg (by linarith), if_neg (by linarith), if_pos h2]

theorem ageBin_ge_80 {q : ℚ} (h : 80 ≤ q) : ageBin q = .num 13 := by
  unfold ageBin
  rw [if_neg (by linarith), if_neg (by linarith), if_neg (by linarith),
    if_neg (by linarith), if_neg (by linarith), if_neg (by linarith),
    if_neg (by linarith), if_neg (by linarith), if_neg (by linarith),
    if_neg (by linarith), if_neg (by linarith), if_neg (by linarith),
    if_neg (by linarith)]

theorem incomeBin_Ico_10000_15000 {q : ℚ} (h1 : 10000 ≤ q) (h2 : q < 15000) :
    incomeBin q = .num 2 := by
  unfold incomeBin
  rw [if_neg (by linarith), if_neg (by linarith), if_pos h2]

theorem incomeBin_ge_75000 {q : ℚ} (h : 75000 ≤ q) : incomeBin q = .num 8 := by
  unfold incomeBin
  rw [if_neg (by linarith), if_neg (by linarith), if_neg (by linarith),
    if_neg (by linarith), if_neg (by linarith), if_neg (by linarith),
    if_neg (by linarith), if_neg (by linarith)]

theorem ageBin_na_of_valid_code {q : ℚ} (h1 : 1 ≤ q) (h2 : q ≤ 13) :
    ageBin q = .na := by
  unfold ageBin
  rw [if_pos (by linarith)]

theorem incomeBin_one_of_valid_code {q : ℚ} (h1 : 1 ≤ q) (h2 : q ≤ 8) :
    incomeBin q = .num 1 := by
  unfold incomeBin
  rw [if_neg (by linarith), if_pos (by linarith)]

theorem dayColFn_range {vs vs' : List Val} (h : dayColFn vs = some vs') :
    ∀ v ∈ vs', ∃ q, v = .num q ∧ q.den = 1 ∧ 0 ≤ q ∧ q ≤ 30 := by
  intro v hv
  rw [dayColFn_eq, Option.bind_eq_some] at h
  obtain ⟨m, hm, h⟩ := h
  obtain ⟨hall, hmap⟩ := astypeInt_some h
  rw [hmap, List.mem_map] at hv
  obtain ⟨x, hx, rfl⟩ := hv
  rw [List.all_eq_true] at hall
  cases x with
  | str s => exact absurd (hall _ hx) (by simp [isNumV])
  | na => exact absurd (hall _ hx) (by simp [isNumV])
  | num q =>
    rw [List.mem_map] at hx
    obtain ⟨w, _, hw⟩ := hx
    have hq : 0 ≤ q ∧ q ≤ 30 := by
      cases w with
      | num q0 =>
        simp only [clipVal] at hw
        have := Val.num.inj hw
        constructor
        · rw [← this]; exact le_max_left _ _
        · rw [← this]; exact max_le (by norm_num) (min_le_right _ _)
      | str s => simp [clipVal] at hw
      | na => simp [clipVal] at hw
    refine ⟨(truncQ q : ℚ), rfl, by simp, ?_, ?_⟩
    · have := truncQ_nonneg hq.1
      exact_mod_cast this
    · exact truncQ_le hq.1 hq.2

/-! ### The final enforcement pass on one column -/

theorem finalColFn_of_all_num {n : String} {vs : List Val}
    (h : ∀ v ∈ vs, ∃ q, v = .num q) : finalColFn n vs = some vs := by
  rw [finalColFn_eq]
  have hmap : vs.map toNum = vs :=
    map_id_of_eq (fun v hv => by obtain ⟨q, rfl⟩ := h v hv; rfl)
  rw [hmap]
  have hany : vs.any isNA = false := by
    rw [List.any_eq_false]
    intro v hv
    obtain ⟨q, rfl⟩ := h v hv
    simp [isNA]
  rw [if_neg (by simp [hany])]

theorem finalColFn_no_str {n : String} {vs vs' : List Val}
    (h : finalColFn n vs = some vs') : ∀ v ∈ vs', isStr v = false := by
  rw [finalColFn_eq] at h
  split at h
  · split at h
    · rw [Option.map_eq_some'] at h
      obtain ⟨m, hm, rfl⟩ := h
      intro v hv
      rcases mem_fillNA hv with rfl | hv'
      · exact not_str_of_mem_map_toNum (modeVal_mem hm).1
      · exact not_str_of_mem_map_toNum hv'
    · rw [Option.map_eq_some'] at h
      obtain ⟨m, hm, rfl⟩ := h
      intro v hv
      rcases mem_fillNA hv with rfl | hv'
      · rcases medianVal_cases hm with rfl | ⟨q, rfl⟩ <;> rfl
      · exact not_str_of_mem_map_toNum hv'
  · rw [← Option.some.inj h]
    intro v hv
    exact not_str_of_mem_map_toNum hv

theorem finalColFn_coded_num {n : String} {vs vs' : List Val}
    (hn : modeImputeCols.contains n = true)
    (h : finalColFn n vs = some vs') : ∀ v ∈ vs', ∃ q, v = .num q := by
  rw [finalColFn_eq, if_pos hn] at h
  split at h
  · rw [Option.map_eq_some'] at h
    obtain ⟨m, hm, rfl⟩ := h
    intro v hv
    have h1 : isNA v = false := fillNA_no_na (modeVal_mem hm).2 v hv
    have h2 : isStr v = false := by
      rcases mem_fillNA hv with rfl | hv'
      · exact not_str_of_mem_map_toNum (modeVal_mem hm).1
      · exact not_str_of_mem_map_toNum hv'
    exact not_na_not_str h1 h2
  · rename_i hany
    rw [← Option.some.inj h]
    intro v hv
    have hany' : (vs.map toNum).any isNA = false := by simpa using hany
    exact not_na_not_str (by simpa using List.any_eq_false.mp hany' _ hv)
      (not_str_of_mem_map_toNum hv)

theorem finalColFn_coded_range {n : String} {vs vs' : List Val} {P : ℚ → Prop}
    (hn : modeImputeCols.contains n = true)
    (hvs : ∀ v ∈ vs, v = .na ∨ ∃ q, v = .num q ∧ P q)
    (h : finalColFn n vs = some vs') :
    ∀ v ∈ vs', ∃ q, v = .num q ∧ P q := by
  have hmap : vs.map toNum = vs := map_id_of_eq (fun v hv => by
    rcases hvs v hv with rfl | ⟨q, rfl, _⟩ <;> rfl)
  rw [finalColFn_eq, hmap, if_pos hn] at h
  split at h
  · rw [Option.map_eq_some'] at h
    obtain ⟨m, hm, rfl⟩ := h
    have hmprop : ∃ q, m = .num q ∧ P q := by
      obtain ⟨hmem, hna⟩ := modeVal_mem hm
      rcases hvs m hmem with rfl | hok
      · simp [isNA] at hna
      · exact hok
    have hmna : isNA m = false := by
      obtain ⟨q, hqq, _⟩ := hmprop
      rw [hqq]; rfl
    intro v hv
    rcases mem_fillNA hv with rfl | hv'
    · exact hmprop
    · rcases hvs v hv' with rfl | hok
      · have := fillNA_no_na hmna _ hv
        simp [isNA] at this
      · exact hok
  · rename_i hany
    rw [← Option.some.inj h]
    intro v hv
    rcases hvs v hv with rfl | hok
    · have hany' : vs.any isNA = false := by simpa using hany
      have := List.any_eq_false.mp hany' _ hv
      simp [isNA] at this
    · exact hok

/-! ### Packaged facts about the pipeline stages -/

theorem withCol_frame {t t' : Table} {name : String}
    {f : List Val → Option (List Val)}
    (hlen : ∀ vs vs', f vs = some vs' → vs'.length = vs.length)
    (h : withCol t name f = some t') :
    t'.header = t.header ∧ t'.rows.length = t.rows.length ∧ (WF t → WF t') ∧
      ∀ k, t.header.getD k "" ≠ name → colVals t' k = colVals t k := by
  rcases withCol_spec h with ⟨_, rfl⟩ | ⟨k0, vs', hidx, hf, rfl⟩
  · exact ⟨rfl, rfl, fun hwf => hwf, fun _ _ => rfl⟩
  · obtain ⟨hk0lt, hk0name⟩ := idxOf?_mem hidx
    have hlen' : vs'.length = t.rows.length := by
      rw [hlen _ _ hf]; simp
    refine ⟨rfl, rows_length_setCol hlen', fun hwf => WF_setCol hwf, ?_⟩
    intro k hk
    exact colVals_setCol_other (fun he => hk (he ▸ hk0name)) hlen'

theorem withCol_estab {t t' : Table} {name : String}
    {f : List Val → Option (List Val)}
    (hlen : ∀ vs vs', f vs = some vs' → vs'.length = vs.length)
    (hwf : WF t) (hnd : t.header.Nodup)
    (h : withCol t name f = some t')
    (k : Nat) (hk : k < t.header.length) (hname : t.header.getD k "" = name) :
    ∃ vs', f (colVals t k) = some vs' ∧ colVals t' k = vs' := by
  rcases withCol_spec h with ⟨hnone, rfl⟩ | ⟨k0, vs', hidx, hf, rfl⟩
  · exfalso
    apply idxOf?_none_not_mem hnone
    rw [← hname, List.getD_eq_getElem _ _ hk]
    exact List.getElem_mem hk
  · have hsome : idxOf? name t.header = some k := idxOf?_of_getD hnd hk hname
    unfold colIdx at hidx
    rw [hsome] at hidx
    have hk0 : k0 = k := (Option.some.inj hidx).symm
    subst hk0
    refine ⟨vs', hf, ?_⟩
    apply colVals_setCol_self
    · rw [hlen _ _ hf]; simp
    · intro r hr
      rw [hwf r hr]
      exact hk

theorem binaryPass_spec :
    ∀ (cs : List String) (t t' : Table), binaryPass t cs = some t' →
      WF t → t.header.Nodup →
      t'.header = t.header ∧ t'.rows.length = t.rows.length ∧ WF t' ∧
        (∀ k, k < t.header.length → t.header.getD k "" ∈ cs →
          ∀ v ∈ colVals t' k, v = .num 0 ∨ v = .num 1) ∧
        (∀ k, t.header.getD k "" ∉ cs → colVals t' k = colVals t k) := by
  intro cs
  induction cs with
  | nil =>
    intro t t' h hwf _
    have heq : t = t' := Option.some.inj h
    subst heq
    exact ⟨rfl, rfl, hwf, fun k _ hk => absurd hk (by simp), fun _ _ => rfl⟩
  | cons c cs ih =>
    intro t t' h hwf hnd
    have h1 : (match withCol t c (fun vs => some (vs.map binCoerce)) with
        | none => (none : Option Table)
        | some tm => binaryPass tm cs) = some t' := h
    cases hw : withCol t c (fun vs => some (vs.map binCoerce)) with
    | none => rw [hw] at h1; exact absurd h1 (by simp)
    | some tm =>
      rw [hw] at h1
      have hflen : ∀ vs vs' : List Val,
          (some (vs.map binCoerce) : Option (List Val)) = some vs' →
          vs'.length = vs.length := by
        intro vs vs' hh
        rw [← Option.some.inj hh]
        simp
      obtain ⟨hmh, hmrl, hmwf, hmfr⟩ := withCol_frame hflen hw
      have hmwf' : WF tm := hmwf hwf
      have hmnd : tm.header.Nodup := hmh ▸ hnd
      obtain ⟨hh', hrl', hwf', hest', hunt'⟩ := ih tm t' h1 hmwf' hmnd
      refine ⟨by rw [hh', hmh], by rw [hrl', hmrl], hwf', ?_, ?_⟩
      · intro k hklt hkmem v hv
        by_cases hkcs : t.header.getD k "" ∈ cs
        · exact hest' k (by rw [hmh]; exact hklt)
            (by rw [hmh]; exact hkcs) v hv
        · have hkc : t.header.getD k "" = c := by
            rcases List.mem_cons.mp hkmem with h' | h'
            · exact h'
            · exact absurd h' hkcs
          obtain ⟨vs', hfeq, hcv⟩ := withCol_estab hflen hwf hnd hw k hklt hkc
          have hvs' : vs' = (colVals t k).map binCoerce :=
            (Option.some.inj hfeq).symm
          have huntail : colVals t' k = colVals tm k :=
            hunt' k (by rw [hmh]; exact hkcs)
          rw [huntail, hcv, hvs'] at hv
          rw [List.mem_map] at hv
          obtain ⟨w, _, rfl⟩ := hv
          exact binCoerce_range w
      · intro k hknotin
        have hkc : t.header.getD k "" ≠ c :=
          fun he => hknotin (he ▸ List.mem_cons_self c cs)
        have hkcs : t.header.getD k "" ∉ cs :=
          fun he => hknotin (List.mem_cons_of_mem c he)
        rw [hunt' k (by rw [hmh]; exact hkcs), hmfr k hkc]

theorem step1_spec {t t' : Table} (h : step1 t = some t') (hwf : WF t) :
    t'.header = t.header ∧ t'.rows.length = t.rows.length ∧ WF t' := by
  obtain ⟨h1, h2, h3, _, _⟩ :=
    colsPass_spec (fun n vs vs' hh => step1Fn_length hh)
      (List.range t.header.length) t t' h hwf
      (fun k hk => List.mem_range.mp hk) (List.nodup_range _)
  exact ⟨h1, h2, h3⟩

theorem finalPass_spec {t t' : Table} (h : finalPass t = some t') (hwf : WF t) :
    t'.header = t.header ∧ t'.rows.length = t.rows.length ∧ WF t' ∧
      ∀ k, k < t.header.length →
        ∃ vs', finalColFn (t.header.getD k "") (colVals t k) = some vs' ∧
          colVals t' k = vs' := by
  obtain ⟨h1, h2, h3, _, h5⟩ :=
    colsPass_spec (fun n vs vs' hh => finalColFn_length hh)
      (List.range t.header.length) t t' h hwf
      (fun k hk => List.mem_range.mp hk) (List.nodup_range _)
  exact ⟨h1, h2, h3, fun k hk => h5 k (List.mem_range.mpr hk)⟩

theorem dedupStep_spec (t : Table) (hwf : WF t) :
    (dedupStep t).header = t.header ∧
      (dedupStep t).rows.length ≤ t.rows.length ∧ WF (dedupStep t) := by
  refine ⟨rfl, (dedupAux_sublist [] t.rows).length_le, ?_⟩
  intro r hr
  exact hwf r (mem_dedupRows.mp hr)

theorem WF_canonTable {t : Table} (hwf : WF t) : WF (canonTable t) := by
  intro r hr
  simp only [canonTable, List.length_map]
  exact hwf r hr

theorem preprocess_decomp {t t' : Table}
    (h : preprocess_survey_data t = some t') :
    ∃ t1 t2 t3 t4 t5 t6 t7 t8,
      step1 (canonTable t) = some t1 ∧
      binaryPass (dedupStep t1) binaryCols = some t2 ∧
      genhlthStep t2 = some t3 ∧
      educationStep t3 = some t4 ∧
      ageStep t4 = some t5 ∧
      incomeStep t5 = some t6 ∧
      mentStep t6 = some t7 ∧
      physStep t7 = some t8 ∧
      finalPass t8 = some t' := by
  unfold preprocess_survey_data at h
  rw [Option.bind_eq_some] at h
  obtain ⟨t1, h1, h⟩ := h
  rw [Option.bind_eq_some] at h
  obtain ⟨t2, h2, h⟩ := h
  rw [Option.bind_eq_some] at h
  obtain ⟨t3, h3, h⟩ := h
  rw [Option.bind_eq_some] at h
  obtain ⟨t4, h4, h⟩ := h
  rw [Option.bind_eq_some] at h
  obtain ⟨t5, h5, h⟩ := h
  rw [Option.bind_eq_some] at h
  obtain ⟨t6, h6, h⟩ := h
  rw [Option.bind_eq_some] at h
  obtain ⟨t7, h7, h⟩ := h
  rw [Option.bind_eq_some] at h
  obtain ⟨t8, h8, h⟩ := h
  exact ⟨t1, t2, t3, t4, t5, t6, t7, t8, h1, h2, h3, h4, h5, h6, h7, h8, h⟩

theorem filter_not_na_replicate (n : Nat) :
    (List.replicate n Val.na).filter (fun v => !(isNA v)) = [] := by
  induction n with
  | zero => rfl
  | succ n ih => simp [List.replicate_succ, List.filter_cons, isNA, ih]

theorem binaryPass_frame : ∀ (cs : List String) (t t' : Table),
    binaryPass t cs = some t' → WF t →
    t'.header = t.header ∧ t'.rows.length = t.rows.length ∧ WF t' := by
  intro cs
  induction cs with
  | nil =>
    intro t t' h hwf
    have heq : t = t' := Option.some.inj h
    subst heq
    exact ⟨rfl, rfl, hwf⟩
  | cons c cs ih =>
    intro t t' h hwf
    have h1 : (match withCol t c (fun vs => some (vs.map binCoerce)) with
        | none => (none : Option Table)
        | some tm => binaryPass tm cs) = some t' := h
    cases hw : withCol t c (fun vs => some (vs.map binCoerce)) with
    | none => rw [hw] at h1; exact absurd h1 (by simp)
    | some tm =>
      rw [hw] at h1
      have hflen : ∀ vs vs' : List Val,
          (some (vs.map binCoerce) : Option (List Val)) = some vs' →
          vs'.length = vs.length := by
        intro vs vs' hh
        rw [← Option.some.inj hh]
        simp
      obtain ⟨hmh, hmrl, hmwf, _⟩ := withCol_frame hflen hw
      obtain ⟨hh', hrl', hwf'⟩ := ih tm t' h1 (hmwf hwf)
      exact ⟨by rw [hh', hmh], by rw [hrl', hmrl], hwf'⟩

/-- C1 counterexample: a table whose mode-imputed column `HighBP` is
entirely missing makes `preprocess_survey_data` raise (the `KeyError`
from `mode()[0]` on an empty mode list): the result is the error value,
not a table. -/
theorem C1_counterexample :
    preprocess_survey_data ⟨["HighBP"], [[Val.na]]⟩ = none := by decide

/-- C1 (amended): the engine is not total.  For every positive row
count, a table whose single column `HighBP` (a mode-imputed binary
column) is entirely missing makes the engine raise in the first
imputation pass: `mode()` of a fully missing column is empty and
`mode()[0]` raises. -/
theorem C1_amended (n : Nat) (h : 0 < n) :
    preprocess_survey_data ⟨["HighBP"], List.replicate n [Val.na]⟩ = none := by
  have hcanon : canonTable ⟨["HighBP"], List.replicate n [Val.na]⟩
      = ⟨["HighBP"], List.replicate n [Val.na]⟩ := rfl
  have hcol : colVals ⟨["HighBP"], List.replicate n [Val.na]⟩ 0
      = List.replicate n Val.na := by
    simp [colVals, List.map_replicate]
  have hmode : modeVal (List.replicate n Val.na) = none :=
    modeVal_none_of_all_na (filter_not_na_replicate n)
  have hfn : step1Fn "HighBP" (List.replicate n Val.na) = none := by
    unfold step1Fn
    rw [if_neg (by decide), if_pos (by decide), hmode]
    rfl
  have hs1 : step1 ⟨["HighBP"], List.replicate n [Val.na]⟩ = none := by
    show (match step1Fn
        ((⟨["HighBP"], List.replicate n [Val.na]⟩ : Table).header.getD 0 "")
        (colVals ⟨["HighBP"], List.replicate n [Val.na]⟩ 0) with
      | none => (none : Option Table)
      | some vs => colsPass step1Fn
          (setCol ⟨["HighBP"], List.replicate n [Val.na]⟩ 0 vs) []) = none
    rw [hcol]
    have : step1Fn ((⟨["HighBP"], List.replicate n [Val.na]⟩ : Table).header.getD 0 "")
        (List.replicate n Val.na) = none := hfn
    rw [this]
  unfold preprocess_survey_data
  rw [hcanon, hs1]
  rfl

/-- C1 witness: the amended statement applied at three rows. -/
theorem C1_witness :
    0 < 3 ∧ preprocess_survey_data ⟨["HighBP"], List.replicate 3 [Val.na]⟩ = none :=
  ⟨by decide, C1_amended 3 (by decide)⟩

/-- C6 counterexample: when an Age column is entirely missing after
coercion, the source imputes `age_labels[len(age_labels)//2 - 1]`, which
is 6 — not 7, the middle of the thirteen labels 1..13 claimed by the
spec; likewise Income is imputed with 4. -/
theorem C6_counterexample :
    ageFillValue [Val.na] = Val.num 6 ∧ Val.num 6 ≠ Val.num 7 ∧
      incomeFillValue [Val.na] = Val.num 4 := by decide

/-- C6 (amended): for every Age (resp. Income) column that is
entirely missing after numeric coercion, the binning step imputes the
fixed fallback `labels[len(labels)//2 - 1]`, i.e. 6 for Age (not the
middle label 7) and 4 for Income, before bucketing. -/
theorem C6_amended (vs : List Val) (h : vs.all isNA = true) :
    ageFillValue vs = .num 6 ∧ incomeFillValue vs = .num 4 := by
  unfold ageFillValue incomeFillValue
  rw [if_pos h, if_pos h]
  exact ⟨by decide, by decide⟩

/-- C6 witness: the amended statement applied to a two-row
all-missing column. -/
theorem C6_witness :
    ageFillValue [Val.na, Val.na] = .num 6 ∧
      incomeFillValue [Val.na, Val.na] = .num 4 :=
  C6_amended [Val.na, Val.na] (by decide)

/-- C7: binning of raw continuous Age and Income values uses
left-inclusive, right-exclusive intervals with the last bin extending to
infinity: every raw Age in `[40,45)` is bucketed to bin 5 and every raw
Age at least 80 to bin 13; every raw Income in `[10000,15000)` goes to
bin 2 and every raw Income at least 75000 to bin 8; end to end, the
engine maps the Age column `[42, 81]` to `[5, 13]` and the Income column
`[12000, 80000]` to `[2, 8]`. -/
theorem C7_binning :
    (∀ q : ℚ, 40 ≤ q → q < 45 → ageBin q = .num 5) ∧
    (∀ q : ℚ, 80 ≤ q → ageBin q = .num 13) ∧
    (∀ q : ℚ, 10000 ≤ q → q < 15000 → incomeBin q = .num 2) ∧
    (∀ q : ℚ, 75000 ≤ q → incomeBin q = .num 8) ∧
    preprocess_survey_data ⟨["Age"], [[Val.num 42], [Val.num 81]]⟩
      = some ⟨["Age"], [[Val.num 5], [Val.num 13]]⟩ ∧
    preprocess_survey_data ⟨["Income"], [[Val.num 12000], [Val.num 80000]]⟩
      = some ⟨["Income"], [[Val.num 2], [Val.num 8]]⟩ :=
  ⟨fun _ h1 h2 => ageBin_Ico_40_45 h1 h2,
   fun _ h => ageBin_ge_80 h,
   fun _ h1 h2 => incomeBin_Ico_10000_15000 h1 h2,
   fun _ h => incomeBin_ge_75000 h,
   by decide, by decide⟩

/-- C7 witness: the interval statements applied at 42, 81, 12000 and
80000. -/
theorem C7_witness :
    ageBin 42 = .num 5 ∧ ageBin 81 = .num 13 ∧
      incomeBin 12000 = .num 2 ∧ incomeBin 80000 = .num 8 :=
  ⟨C7_binning.1 42 (by norm_num) (by norm_num),
   C7_binning.2.1 81 (by norm_num),
   C7_binning.2.2.1 12000 (by norm_num) (by norm_num),
   C7_binning.2.2.2.1 80000 (by norm_num)⟩

/-- C10: re-binning of Age / Income is all-or-nothing on the whole
column: whenever the already-coded check fails, every value is re-binned
as a raw measurement; every Age code in `[1,13]` lies below the first
bin edge 18 and becomes missing (later replaced by the column mode in
the final pass), and every Income code in `[1,8]` falls into the first
bin `[0,10000)` and collapses to 1.  End to end: the Age column
`[3, 42]` (3 is a valid code, 42 is not) becomes `[5, 5]` — the valid
code 3 was re-binned to missing and replaced by the mode 5 — and the
Income column `[2, 80000]` becomes `[1, 8]`. -/
theorem C10_all_or_nothing :
    (∀ vs : List Val, alreadyCoded 1 13 vs = false →
      ∀ vs', binnedColFn 1 13 ageFillValue cutAge vs = some vs' →
        vs' = (fillNA (vs.map toNum) (ageFillValue (vs.map toNum))).map cutAge) ∧
    (∀ q : ℚ, 1 ≤ q → q ≤ 13 → ageBin q = .na) ∧
    (∀ q : ℚ, 1 ≤ q → q ≤ 8 → incomeBin q = .num 1) ∧
    preprocess_survey_data ⟨["Age"], [[Val.num 3], [Val.num 42]]⟩
      = some ⟨["Age"], [[Val.num 5], [Val.num 5]]⟩ ∧
    preprocess_survey_data ⟨["Income"], [[Val.num 2], [Val.num 80000]]⟩
      = some ⟨["Income"], [[Val.num 1], [Val.num 8]]⟩ := by
  refine ⟨?_, fun _ h1 h2 => ageBin_na_of_valid_code h1 h2,
    fun _ h1 h2 => incomeBin_one_of_valid_code h1 h2, by decide, by decide⟩
  intro vs hcoded vs' h
  rw [binnedColFn_eq, if_neg (by simp [hcoded])] at h
  split at h
  · exact absurd h (by simp)
  · exact (Option.some.inj h).symm

/-- C10 witness: the statements applied at concrete codes. -/
theorem C10_witness :
    ageBin 3 = .na ∧ incomeBin 2 = .num 1 :=
  ⟨C10_all_or_nothing.2.1 3 (by norm_num) (by norm_num),
   C10_all_or_nothing.2.2.1 2 (by norm_num) (by norm_num)⟩

/-- C5 counterexample: neither the GenHlth nor the Education label map
is case-insensitive.  On the GenHlth column `["Poor", "excellent"]` the
value `"Poor"` fails the (exact, lowercase-keyed) dict lookup, becomes
missing and is imputed with the post-map column mode 1 — the engine
outputs `[1, 1]`, whereas case-insensitivity would map `"Poor"` to 5.
Analogously, on the Education column `["Elementary", "high school"]`
the value `"Elementary"` fails the lookup and is imputed with the mode
4 — the engine outputs `[4, 4]`, whereas case-insensitivity would map
`"Elementary"` to 2. -/
theorem C5_counterexample :
    (preprocess_survey_data ⟨["GenHlth"], [[Val.str "Poor"], [Val.str "excellent"]]⟩
      = some ⟨["GenHlth"], [[Val.num 1], [Val.num 1]]⟩ ∧
      Val.num 1 ≠ Val.num 5) ∧
    (preprocess_survey_data
        ⟨["Education"], [[Val.str "Elementary"], [Val.str "high school"]]⟩
      = some ⟨["Education"], [[Val.num 4], [Val.num 4]]⟩ ∧
      Val.num 4 ≠ Val.num 2) := by decide

/-- C5 (amended): the ordinal label-to-code remap for GenHlth and for
Education is case-sensitive exact matching on the lowercase label text:
every one of the five GenHlth labels and six Education labels maps to
its code exactly as written (in particular `"poor"` to 5 and
`"excellent"` to 1, end to end as well, and `"elementary"` to 2 end to
end), and every other string — including any other casing of a valid
label — fails the map and becomes missing, to be replaced by the
post-map column mode. -/
theorem C5_amended :
    preprocess_survey_data ⟨["GenHlth"], [[Val.str "poor"]]⟩
      = some ⟨["GenHlth"], [[Val.num 5]]⟩ ∧
    preprocess_survey_data ⟨["GenHlth"], [[Val.str "excellent"]]⟩
      = some ⟨["GenHlth"], [[Val.num 1]]⟩ ∧
    preprocess_survey_data ⟨["Education"], [[Val.str "elementary"]]⟩
      = some ⟨["Education"], [[Val.num 2]]⟩ ∧
    (∀ p ∈ genhlthLabels,
      mapWith genhlthCodes genhlthLabels (.str p.1) = .num p.2) ∧
    (∀ p ∈ educationLabels,
      mapWith educationCodes educationLabels (.str p.1) = .num p.2) ∧
    (∀ s : String, s ≠ "excellent" → s ≠ "very good" → s ≠ "good" →
      s ≠ "fair" → s ≠ "poor" →
      mapWith genhlthCodes genhlthLabels (.str s) = .na) ∧
    (∀ s : String, s ≠ "never attended school or only kindergarten" →
      s ≠ "elementary" → s ≠ "middle school" → s ≠ "high school" →
      s ≠ "less than 4 years college" → s ≠ "4 years college or more" →
      mapWith educationCodes educationLabels (.str s) = .na) := by
  refine ⟨by decide, by decide, by decide, by decide, by decide, ?_, ?_⟩
  · intro s h1 h2 h3 h4 h5
    simp only [mapWith, genhlthLabels, List.lookup]
    rw [beq_eq_false_iff_ne.mpr h1, beq_eq_false_iff_ne.mpr h2,
      beq_eq_false_iff_ne.mpr h3, beq_eq_false_iff_ne.mpr h4,
      beq_eq_false_iff_ne.mpr h5]
  · intro s h1 h2 h3 h4 h5 h6
    simp only [mapWith, educationLabels, List.lookup]
    rw [beq_eq_false_iff_ne.mpr h1, beq_eq_false_iff_ne.mpr h2,
      beq_eq_false_iff_ne.mpr h3, beq_eq_false_iff_ne.mpr h4,
      beq_eq_false_iff_ne.mpr h5, beq_eq_false_iff_ne.mpr h6]

/-- C5 witness: the universal parts of the amended statement applied to
the case variants `"Poor"` (GenHlth) and `"Elementary"` (Education),
and the exact-label parts applied to `"fair"` and `"middle school"`. -/
theorem C5_witness :
    mapWith genhlthCodes genhlthLabels (.str "Poor") = .na ∧
      mapWith educationCodes educationLabels (.str "Elementary") = .na ∧
      mapWith genhlthCodes genhlthLabels (.str "fair") = .num 4 ∧
      mapWith educationCodes educationLabels (.str "middle school") = .num 3 :=
  ⟨C5_amended.2.2.2.2.2.1 "Poor" (by decide) (by decide) (by decide)
      (by decide) (by decide),
    C5_amended.2.2.2.2.2.2 "Elementary" (by decide) (by decide) (by decide)
      (by decide) (by decide) (by decide),
    C5_amended.2.2.2.1 ("fair", 4) (by decide),
    C5_amended.2.2.2.2.1 ("middle school", 3) (by decide)⟩

theorem mem_colVals_of_mem_row {t : Table} {r : List Val} {v : Val}
    (hr : r ∈ t.rows) {i : Nat} (hv : r.getD i Val.na = v) :
    v ∈ colVals t i := by
  rw [colVals, List.mem_map]
  exact ⟨r, hr, hv⟩

/-- C2 counterexample: on a table whose `BMI` column is entirely
missing, the engine does not raise but also does not produce a numeric
value: the median of an all-missing column is `NaN`, `fillna(NaN)` is a
no-op, and the final enforcement pass re-imputes `BMI` with the median
of an all-missing column again — the output cell is still missing. -/
theorem C2_counterexample :
    preprocess_survey_data ⟨["BMI"], [[Val.na]]⟩ = some ⟨["BMI"], [[Val.na]]⟩ ∧
      isNumV Val.na = false := by decide

/-- C2 (amended): for every well-formed input table on which the
engine succeeds, no text survives in any cell of the output, and every
mode-imputed (binary or ordinal) column is fully numeric; missing values
can remain only in median-imputed columns (such as `BMI`) whose values
were entirely non-numeric at the final pass. -/
theorem C2_amended {t t' : Table} (hwf : WF t)
    (h : preprocess_survey_data t = some t') :
    WF t' ∧
      (∀ r ∈ t'.rows, ∀ v ∈ r, isStr v = false) ∧
      (∀ k, k < t'.header.length →
        modeImputeCols.contains (t'.header.getD k "") = true →
        ∀ v ∈ colVals t' k, ∃ q, v = .num q) := by
  obtain ⟨t1, t2, t3, t4, t5, t6, t7, t8, h1, h2, h3, h4, h5, h6, h7, h8, h9⟩ :=
    preprocess_decomp h
  have hwf0 : WF (canonTable t) := WF_canonTable hwf
  obtain ⟨_, _, hwf1⟩ := step1_spec h1 hwf0
  obtain ⟨_, _, hwfD⟩ := dedupStep_spec t1 hwf1
  obtain ⟨_, _, hwf2⟩ := binaryPass_frame binaryCols (dedupStep t1) t2 h2 hwfD
  obtain ⟨_, _, hwf3f, _⟩ := withCol_frame (fun vs vs' hh => codedColFn_length hh) h3
  obtain ⟨_, _, hwf4f, _⟩ := withCol_frame (fun vs vs' hh => codedColFn_length hh) h4
  obtain ⟨_, _, hwf5f, _⟩ := withCol_frame (fun vs vs' hh => binnedColFn_length hh) h5
  obtain ⟨_, _, hwf6f, _⟩ := withCol_frame (fun vs vs' hh => binnedColFn_length hh) h6
  obtain ⟨_, _, hwf7f, _⟩ := withCol_frame (fun vs vs' hh => dayColFn_length hh) h7
  obtain ⟨_, _, hwf8f, _⟩ := withCol_frame (fun vs vs' hh => dayColFn_length hh) h8
  have hwf8 : WF t8 := hwf8f (hwf7f (hwf6f (hwf5f (hwf4f (hwf3f hwf2)))))
  obtain ⟨hhF, _, hwfF, hcols⟩ := finalPass_spec h9 hwf8
  refine ⟨hwfF, ?_, ?_⟩
  · intro r hr v hv
    obtain ⟨i, hi, hiv⟩ := List.mem_iff_getElem.mp hv
    have hvc : v ∈ colVals t' i :=
      mem_colVals_of_mem_row hr (by rw [List.getD_eq_getElem _ _ hi, hiv])
    have hlen8 : r.length = t8.header.length := by
      rw [hwfF r hr, hhF]
    obtain ⟨vs', hfc, hcv⟩ := hcols i (hlen8 ▸ hi)
    rw [hcv] at hvc
    exact finalColFn_no_str hfc v hvc
  · intro k hk hcontains v hv
    have hklt : k < t8.header.length := by
      rw [← hhF]
      exact hk
    obtain ⟨vs', hfc, hcv⟩ := hcols k hklt
    rw [hcv] at hv
    rw [hhF] at hcontains
    exact finalColFn_coded_num hcontains hfc v hv

/-- C2 witness: the amended statement applied to a two-column table
that the engine maps to itself. -/
theorem C2_witness :
    isStr (Val.num 20) = false ∧ ∃ q, Val.num 1 = Val.num q := by
  have hmain := @C2_amended
    ⟨["BMI", "HighBP"], [[Val.num 20, Val.num 1]]⟩
    ⟨["BMI", "HighBP"], [[Val.num 20, Val.num 1]]⟩
    (by intro r hr; rw [List.mem_singleton.mp hr]; rfl) (by decide)
  exact ⟨hmain.2.1 [Val.num 20, Val.num 1] (by decide) (Val.num 20) (by decide),
    hmain.2.2 1 (by decide) (by decide) (Val.num 1) (by decide)⟩

/-- C4 counterexample: the claim says any strictly positive numeric
value becomes 1 in a binary column, but the source truncates with
`astype(int)` before comparing: the strictly positive input 1/2 in
`HighBP` truncates to 0 and the output is 0, not 1. -/
theorem C4_counterexample :
    preprocess_survey_data ⟨["HighBP"], [[Val.num oneHalf]]⟩
      = some ⟨["HighBP"], [[Val.num 0]]⟩ ∧
      (0 : ℚ) < oneHalf ∧ Val.num 0 ≠ Val.num 1 := by decide

/-- C4 (amended): for every well-formed input table with distinct
canonical column names on which the engine succeeds, every binary
column of the output contains only 0 and 1; per cell, a value that
fails numeric coercion becomes 0, and a value coercing to `q` becomes 1
exactly when its integer truncation is positive, i.e. when `1 ≤ q`
(strictly positive fractions below 1 become 0). -/
theorem C4_amended :
    (∀ (t t' : Table), WF t → (t.header.map canonName).Nodup →
      preprocess_survey_data t = some t' →
      ∀ k, k < t'.header.length → t'.header.getD k "" ∈ binaryCols →
        ∀ v ∈ colVals t' k, v = .num 0 ∨ v = .num 1) ∧
    (∀ v, toNum v = .na → binCoerce v = .num 0) ∧
    (∀ v q, toNum v = .num q →
      binCoerce v = if 1 ≤ q then .num 1 else .num 0) := by
  refine ⟨?_, ?_, ?_⟩
  · intro t t' hwf hnd h k hk hmem v hv
    obtain ⟨t1, t2, t3, t4, t5, t6, t7, t8, h1, h2, h3, h4, h5, h6, h7, h8, h9⟩ :=
      preprocess_decomp h
    have hwf0 : WF (canonTable t) := WF_canonTable hwf
    obtain ⟨hh1, _, hwf1⟩ := step1_spec h1 hwf0
    obtain ⟨hhD, _, hwfD⟩ := dedupStep_spec t1 hwf1
    have hndD : (dedupStep t1).header.Nodup := by
      rw [hhD, hh1]
      exact hnd
    obtain ⟨hh2, _, hwf2, hest, _⟩ :=
      binaryPass_spec binaryCols (dedupStep t1) t2 h2 hwfD hndD
    obtain ⟨hh3, _, hwf3f, hfr3⟩ :=
      withCol_frame (fun vs vs' hh => codedColFn_length hh) h3
    obtain ⟨hh4, _, hwf4f, hfr4⟩ :=
      withCol_frame (fun vs vs' hh => codedColFn_length hh) h4
    obtain ⟨hh5, _, hwf5f, hfr5⟩ :=
      withCol_frame (fun vs vs' hh => binnedColFn_length hh) h5
    obtain ⟨hh6, _, hwf6f, hfr6⟩ :=
      withCol_frame (fun vs vs' hh => binnedColFn_length hh) h6
    obtain ⟨hh7, _, hwf7f, hfr7⟩ :=
      withCol_frame (fun vs vs' hh => dayColFn_length hh) h7
    obtain ⟨hh8, _, hwf8f, hfr8⟩ :=
      withCol_frame (fun vs vs' hh => dayColFn_length hh) h8
    have hwf8 : WF t8 := hwf8f (hwf7f (hwf6f (hwf5f (hwf4f (hwf3f hwf2)))))
    obtain ⟨hhF, _, hwfF, hcols⟩ := finalPass_spec h9 hwf8
    have hhead2 : t'.header = t2.header := by
      rw [hhF, hh8, hh7, hh6, hh5, hh4, hh3]
    have hheadD : t'.header = (dedupStep t1).header := by rw [hhead2, hh2]
    have hmemD : (dedupStep t1).header.getD k "" ∈ binaryCols := by
      rw [← hheadD]; exact hmem
    have hkD : k < (dedupStep t1).header.length := by
      rw [← hheadD]; exact hk
    have hc3 : colVals t3 k = colVals t2 k := by
      apply hfr3 k
      rw [← hhead2]
      exact fun he => absurd (he ▸ hmem) (by decide)
    have hc4 : colVals t4 k = colVals t3 k := by
      apply hfr4 k
      rw [hh3, ← hhead2]
      exact fun he => absurd (he ▸ hmem) (by decide)
    have hc5 : colVals t5 k = colVals t4 k := by
      apply hfr5 k
      rw [hh4, hh3, ← hhead2]
      exact fun he => absurd (he ▸ hmem) (by decide)
    have hc6 : colVals t6 k = colVals t5 k := by
      apply hfr6 k
      rw [hh5, hh4, hh3, ← hhead2]
      exact fun he => absurd (he ▸ hmem) (by decide)
    have hc7 : colVals t7 k = colVals t6 k := by
      apply hfr7 k
      rw [hh6, hh5, hh4, hh3, ← hhead2]
      exact fun he => absurd (he ▸ hmem) (by decide)
    have hc8 : colVals t8 k = colVals t7 k := by
      apply hfr8 k
      rw [hh7, hh6, hh5, hh4, hh3, ← hhead2]
      exact fun he => absurd (he ▸ hmem) (by decide)
    have hval8 : colVals t8 k = colVals t2 k := by
      rw [hc8, hc7, hc6, hc5, hc4, hc3]
    have hklt8 : k < t8.header.length := by rw [← hhF]; exact hk
    obtain ⟨vs', hfc, hcv⟩ := hcols k hklt8
    have hnum : ∀ w ∈ colVals t8 k, ∃ q, w = .num q := by
      intro w hw
      rw [hval8] at hw
      rcases hest k hkD hmemD w hw with rfl | rfl
      · exact ⟨0, rfl⟩
      · exact ⟨1, rfl⟩
    have hid : finalColFn (t8.header.getD k "") (colVals t8 k)
        = some (colVals t8 k) := finalColFn_of_all_num hnum
    rw [hid] at hfc
    have hvs' : vs' = colVals t8 k := (Option.some.inj hfc).symm
    rw [hcv, hvs', hval8] at hv
    exact hest k hkD hmemD v hv
  · intro v hvna
    simp only [binCoerce, hvna]
    rw [if_neg (by decide)]
  · intro v q hq
    simp only [binCoerce, hq]
    by_cases h1 : 1 ≤ q
    · rw [if_pos (truncQ_pos_iff.mpr h1), if_pos h1]
    · rw [if_neg (fun hc => h1 (truncQ_pos_iff.mp hc)), if_neg h1]

/-- C4 witness: the amended statement applied to a one-column table
with the value 5 (which collapses to 1) and to a non-coercible string
(which collapses to 0). -/
theorem C4_witness :
    (Val.num 1 = Val.num 0 ∨ Val.num 1 = Val.num 1) ∧
      binCoerce (Val.str "zzz") = Val.num 0 := by
  refine ⟨?_, C4_amended.2.1 (Val.str "zzz") (by decide)⟩
  exact C4_amended.1 ⟨["HighBP"], [[Val.num 5]]⟩ ⟨["HighBP"], [[Val.num 1]]⟩
    (by intro r hr; rw [List.mem_singleton.mp hr]; rfl) (by decide) (by decide)
    0 (by decide) (by decide) (Val.num 1) (by decide)

/-- C3 counterexample: integrality fails for an already-in-range
numeric column: a `GenHlth` column containing 2.5 passes the
already-coded check, is only clipped, and the output value 2.5 is not an
integer. -/
theorem C3_counterexample :
    preprocess_survey_data ⟨["GenHlth"], [[Val.num fiveHalves]]⟩
      = some ⟨["GenHlth"], [[Val.num fiveHalves]]⟩ ∧
      fiveHalves.den ≠ 1 := by decide

/-- C3 (amended): for every well-formed input table with distinct
canonical column names on which the engine succeeds, the *range* part of
the invariant holds — GenHlth in `[1,5]`, Education in `[1,6]`, Age in
`[1,13]`, Income in `[1,8]`, and MentHlth/PhysHlth integral in `[0,30]`
— but integrality is only guaranteed for MentHlth and PhysHlth: the
ordinal columns pass through unrounded (e.g. 2.5) when the input column
is already numeric and in range. -/
theorem C3_amended {t t' : Table} (hwf : WF t)
    (hnd : (t.header.map canonName).Nodup)
    (h : preprocess_survey_data t = some t') :
    ∀ k, k < t'.header.length →
      (t'.header.getD k "" = "GenHlth" →
        ∀ v ∈ colVals t' k, ∃ q, v = .num q ∧ 1 ≤ q ∧ q ≤ 5) ∧
      (t'.header.getD k "" = "Education" →
        ∀ v ∈ colVals t' k, ∃ q, v = .num q ∧ 1 ≤ q ∧ q ≤ 6) ∧
      (t'.header.getD k "" = "Age" →
        ∀ v ∈ colVals t' k, ∃ q, v = .num q ∧ 1 ≤ q ∧ q ≤ 13) ∧
      (t'.header.getD k "" = "Income" →
        ∀ v ∈ colVals t' k, ∃ q, v = .num q ∧ 1 ≤ q ∧ q ≤ 8) ∧
      (t'.header.getD k "" = "MentHlth" →
        ∀ v ∈ colVals t' k, ∃ q, v = .num q ∧ q.den = 1 ∧ 0 ≤ q ∧ q ≤ 30) ∧
      (t'.header.getD k "" = "PhysHlth" →
        ∀ v ∈ colVals t' k, ∃ q, v = .num q ∧ q.den = 1 ∧ 0 ≤ q ∧ q ≤ 30) := by
  obtain ⟨t1, t2, t3, t4, t5, t6, t7, t8, h1, h2, h3, h4, h5, h6, h7, h8, h9⟩ :=
    preprocess_decomp h
  have hwf0 : WF (canonTable t) := WF_canonTable hwf
  obtain ⟨hh1, _, hwf1⟩ := step1_spec h1 hwf0
  obtain ⟨hhD, _, hwfD⟩ := dedupStep_spec t1 hwf1
  have hndD : (dedupStep t1).header.Nodup := by
    rw [hhD, hh1]; exact hnd
  obtain ⟨hh2, _, hwf2⟩ := binaryPass_frame binaryCols (dedupStep t1) t2 h2 hwfD
  obtain ⟨hh3, _, hwf3f, hfr3⟩ :=
    withCol_frame (fun vs vs' hh => codedColFn_length hh) h3
  obtain ⟨hh4, _, hwf4f, hfr4⟩ :=
    withCol_frame (fun vs vs' hh => codedColFn_length hh) h4
  obtain ⟨hh5, _, hwf5f, hfr5⟩ :=
    withCol_frame (fun vs vs' hh => binnedColFn_length hh) h5
  obtain ⟨hh6, _, hwf6f, hfr6⟩ :=
    withCol_frame (fun vs vs' hh => binnedColFn_length hh) h6
  obtain ⟨hh7, _, hwf7f, hfr7⟩ :=
    withCol_frame (fun vs vs' hh => dayColFn_length hh) h7
  obtain ⟨hh8, _, hwf8f, hfr8⟩ :=
    withCol_frame (fun vs vs' hh => dayColFn_length hh) h8
  have hwf3 : WF t3 := hwf3f hwf2
  have hwf4 : WF t4 := hwf4f hwf3
  have hwf5 : WF t5 := hwf5f hwf4
  have hwf6 : WF t6 := hwf6f hwf5
  have hwf7 : WF t7 := hwf7f hwf6
  have hwf8 : WF t8 := hwf8f hwf7
  obtain ⟨hhF, _, hwfF, hcols⟩ := finalPass_spec h9 hwf8
  have hnd2 : t2.header.Nodup := by rw [hh2]; exact hndD
  have hnd3 : t3.header.Nodup := by rw [hh3]; exact hnd2
  have hnd4 : t4.header.Nodup := by rw [hh4]; exact hnd3
  have hnd5 : t5.header.Nodup := by rw [hh5]; exact hnd4
  have hnd6 : t6.header.Nodup := by rw [hh6]; exact hnd5
  have hnd7 : t7.header.Nodup := by rw [hh7]; exact hnd6
  have hhead2 : t'.header = t2.header := by
    rw [hhF, hh8, hh7, hh6, hh5, hh4, hh3]
  have hhead3 : t'.header = t3.header := by rw [hhF, hh8, hh7, hh6, hh5, hh4]
  have hhead4 : t'.header = t4.header := by rw [hhF, hh8, hh7, hh6, hh5]
  have hhead5 : t'.header = t5.header := by rw [hhF, hh8, hh7, hh6]
  have hhead6 : t'.header = t6.header := by rw [hhF, hh8, hh7]
  have hhead7 : t'.header = t7.header := by rw [hhF, hh8]
  intro k hk
  have hk8 : k < t8.header.length := by rw [← hhF]; exact hk
  have final_id : (∀ w ∈ colVals t8 k, ∃ q, w = .num q) →
      colVals t' k = colVals t8 k := by
    intro hnum
    obtain ⟨vs', hfc, hcv⟩ := hcols k hk8
    rw [finalColFn_of_all_num hnum] at hfc
    rw [hcv, ← Option.some.inj hfc]
  have final_coded : ∀ {P : ℚ → Prop},
      modeImputeCols.contains (t8.header.getD k "") = true →
      (∀ v ∈ colVals t8 k, v = .na ∨ ∃ q, v = .num q ∧ P q) →
      ∀ v ∈ colVals t' k, ∃ q, v = .num q ∧ P q := by
    intro P hcont hprop v hv
    obtain ⟨vs', hfc, hcv⟩ := hcols k hk8
    rw [hcv] at hv
    exact finalColFn_coded_range hcont hprop hfc v hv
  refine ⟨?_, ?_, ?_, ?_, ?_, ?_⟩
  · -- GenHlth
    intro hname v hv
    obtain ⟨vs3, hf3, hcv3⟩ := withCol_estab
      (fun vs vs' hh => codedColFn_length hh) hwf2 hnd2 h3
      k (by rw [← hhead2]; exact hk) (by rw [← hhead2, hname])
    have hprop3 : ∀ w ∈ colVals t3 k, ∃ q, w = .num q ∧ 1 ≤ q ∧ q ≤ 5 := by
      rw [hcv3]
      exact codedColFn_range (by norm_num) hf3
    have hc4 : colVals t4 k = colVals t3 k :=
      hfr4 k (by rw [← hhead3, hname]; decide)
    have hc5 : colVals t5 k = colVals t4 k :=
      hfr5 k (by rw [← hhead4, hname]; decide)
    have hc6 : colVals t6 k = colVals t5 k :=
      hfr6 k (by rw [← hhead5, hname]; decide)
    have hc7 : colVals t7 k = colVals t6 k :=
      hfr7 k (by rw [← hhead6, hname]; decide)
    have hc8 : colVals t8 k = colVals t7 k :=
      hfr8 k (by rw [← hhead7, hname]; decide)
    have hval : colVals t8 k = colVals t3 k := by rw [hc8, hc7, hc6, hc5, hc4]
    have hfin : colVals t' k = colVals t8 k := by
      apply final_id
      intro w hw
      rw [hval] at hw
      obtain ⟨q, rfl, _, _⟩ := hprop3 w hw
      exact ⟨q, rfl⟩
    rw [hfin, hval] at hv
    exact hprop3 v hv
  · -- Education
    intro hname v hv
    have hc3 : colVals t3 k = colVals t2 k :=
      hfr3 k (by rw [← hhead2, hname]; decide)
    obtain ⟨vs4, hf4, hcv4⟩ := withCol_estab
      (fun vs vs' hh => codedColFn_length hh) hwf3 hnd3 h4
      k (by rw [← hhead3]; exact hk) (by rw [← hhead3, hname])
    have hprop4 : ∀ w ∈ colVals t4 k, ∃ q, w = .num q ∧ 1 ≤ q ∧ q ≤ 6 := by
      rw [hcv4]
      exact codedColFn_range (by norm_num) hf4
    have hc5 : colVals t5 k = colVals t4 k :=
      hfr5 k (by rw [← hhead4, hname]; decide)
    have hc6 : colVals t6 k = colVals t5 k :=
      hfr6 k (by rw [← hhead5, hname]; decide)
    have hc7 : colVals t7 k = colVals t6 k :=
      hfr7 k (by rw [← hhead6, hname]; decide)
    have hc8 : colVals t8 k = colVals t7 k :=
      hfr8 k (by rw [← hhead7, hname]; decide)
    have hval : colVals t8 k = colVals t4 k := by rw [hc8, hc7, hc6, hc5]
    have hfin : colVals t' k = colVals t8 k := by
      apply final_id
      intro w hw
      rw [hval] at hw
      obtain ⟨q, rfl, _, _⟩ := hprop4 w hw
      exact ⟨q, rfl⟩
    rw [hfin, hval] at hv
    exact hprop4 v hv
  · -- Age
    intro hname v hv
    have hc3 : colVals t3 k = colVals t2 k :=
      hfr3 k (by rw [← hhead2, hname]; decide)
    have hc4 : colVals t4 k = colVals t3 k :=
      hfr4 k (by rw [← hhead3, hname]; decide)
    obtain ⟨vs5, hf5, hcv5⟩ := withCol_estab
      (fun vs vs' hh => binnedColFn_length hh) hwf4 hnd4 h5
      k (by rw [← hhead4]; exact hk) (by rw [← hhead4, hname])
    have hprop5 : ∀ w ∈ colVals t5 k,
        w = .na ∨ ∃ q, w = .num q ∧ 1 ≤ q ∧ q ≤ 13 := by
      rw [hcv5]
      exact binnedColFn_range ageFillValue_not_str cutAge_range hf5
    have hc6 : colVals t6 k = colVals t5 k :=
      hfr6 k (by rw [← hhead5, hname]; decide)
    have hc7 : colVals t7 k = colVals t6 k :=
      hfr7 k (by rw [← hhead6, hname]; decide)
    have hc8 : colVals t8 k = colVals t7 k :=
      hfr8 k (by rw [← hhead7, hname]; decide)
    have hval : colVals t8 k = colVals t5 k := by rw [hc8, hc7, hc6]
    apply final_coded ?_ ?_ v hv
    · rw [← hhF, hname]
      decide
    · intro w hw
      rw [hval] at hw
      exact hprop5 w hw
  · -- Income
    intro hname v hv
    have hc3 : colVals t3 k = colVals t2 k :=
      hfr3 k (by rw [← hhead2, hname]; decide)
    have hc4 : colVals t4 k = colVals t3 k :=
      hfr4 k (by rw [← hhead3, hname]; decide)
    have hc5 : colVals t5 k = colVals t4 k :=
      hfr5 k (by rw [← hhead4, hname]; decide)
    obtain ⟨vs6, hf6, hcv6⟩ := withCol_estab
      (fun vs vs' hh => binnedColFn_length hh) hwf5 hnd5 h6
      k (by rw [← hhead5]; exact hk) (by rw [← hhead5, hname])
    have hprop6 : ∀ w ∈ colVals t6 k,
        w = .na ∨ ∃ q, w = .num q ∧ 1 ≤ q ∧ q ≤ 8 := by
      rw [hcv6]
      exact binnedColFn_range incomeFillValue_not_str cutIncome_range hf6
    have hc7 : colVals t7 k = colVals t6 k :=
      hfr7 k (by rw [← hhead6, hname]; decide)
    have hc8 : colVals t8 k = colVals t7 k :=
      hfr8 k (by rw [← hhead7, hname]; decide)
    have hval : colVals t8 k = colVals t6 k := by rw [hc8, hc7]
    apply final_coded ?_ ?_ v hv
    · rw [← hhF, hname]
      decide
    · intro w hw
      rw [hval] at hw
      exact hprop6 w hw
  · -- MentHlth
    intro hname v hv
    obtain ⟨vs7, hf7, hcv7⟩ := withCol_estab
      (fun vs vs' hh => dayColFn_length hh) hwf6 hnd6 h7
      k (by rw [← hhead6]; exact hk) (by rw [← hhead6, hname])
    have hprop7 : ∀ w ∈ colVals t7 k,
        ∃ q, w = .num q ∧ q.den = 1 ∧ 0 ≤ q ∧ q ≤ 30 := by
      rw [hcv7]
      exact dayColFn_range hf7
    have hc8 : colVals t8 k = colVals t7 k :=
      hfr8 k (by rw [← hhead7, hname]; decide)
    have hfin : colVals t' k = colVals t8 k := by
      apply final_id
      intro w hw
      rw [hc8] at hw
      obtain ⟨q, rfl, _⟩ := hprop7 w hw
      exact ⟨q, rfl⟩
    rw [hfin, hc8] at hv
    exact hprop7 v hv
  · -- PhysHlth
    intro hname v hv
    obtain ⟨vs8, hf8, hcv8⟩ := withCol_estab
      (fun vs vs' hh => dayColFn_length hh) hwf7 hnd7 h8
      k (by rw [← hhead7]; exact hk) (by rw [← hhead7, hname])
    have hprop8 : ∀ w ∈ colVals t8 k,
        ∃ q, w = .num q ∧ q.den = 1 ∧ 0 ≤ q ∧ q ≤ 30 := by
      rw [hcv8]
      exact dayColFn_range hf8
    have hfin : colVals t' k = colVals t8 k := by
      apply final_id
      intro w hw
      obtain ⟨q, rfl, _⟩ := hprop8 w hw
      exact ⟨q, rfl⟩
    rw [hfin] at hv
    exact hprop8 v hv

/-- C3 witness: the amended statement applied to a one-column
GenHlth table that the engine maps to itself. -/
theorem C3_witness :
    ∃ q, Val.num 3 = Val.num q ∧ 1 ≤ q ∧ q ≤ 5 :=
  (@C3_amended ⟨["GenHlth"], [[Val.num 3]]⟩ ⟨["GenHlth"], [[Val.num 3]]⟩
    (by intro r hr; rw [List.mem_singleton.mp hr]; rfl) (by decide) (by decide)
    0 (by decide)).1 (by decide) (Val.num 3) (by decide)

/-- C8: deduplication keeps a subsequence of the rows (so relative
order is preserved), the result has no duplicate rows, exactly the rows
of the input survive (as values), a duplicate-free input is left
untouched, every row of the input occurs exactly once in the result,
and — since no other pipeline step adds or removes rows — the engine's
output never has more rows than its input and keeps the (canonicalized)
column set. -/
theorem C8_dedup :
    (∀ rs : List (List Val), (dedupRows rs).Sublist rs) ∧
    (∀ rs : List (List Val), (dedupRows rs).Nodup) ∧
    (∀ (rs : List (List Val)) (r : List Val), r ∈ dedupRows rs ↔ r ∈ rs) ∧
    (∀ rs : List (List Val), rs.Nodup → dedupRows rs = rs) ∧
    (∀ (rs : List (List Val)) (r : List Val), r ∈ rs →
      rowCount (dedupRows rs) r = 1) ∧
    (∀ (t t' : Table), WF t → preprocess_survey_data t = some t' →
      t'.rows.length ≤ t.rows.length ∧
        t'.header = t.header.map canonName) := by
  refine ⟨fun rs => dedupAux_sublist [] rs, fun rs => nodup_dedupAux [] rs,
    fun rs r => mem_dedupRows,
    fun rs hnd => dedupAux_eq_self hnd (fun r _ => List.not_mem_nil r),
    fun rs r h => dedupRows_count h, ?_⟩
  intro t t' hwf h
  obtain ⟨t1, t2, t3, t4, t5, t6, t7, t8, h1, h2, h3, h4, h5, h6, h7, h8, h9⟩ :=
    preprocess_decomp h
  have hwf0 : WF (canonTable t) := WF_canonTable hwf
  obtain ⟨hh1, hrl1, hwf1⟩ := step1_spec h1 hwf0
  obtain ⟨hhD, hrlD, hwfD⟩ := dedupStep_spec t1 hwf1
  obtain ⟨hh2, hrl2, hwf2⟩ := binaryPass_frame binaryCols (dedupStep t1) t2 h2 hwfD
  obtain ⟨hh3, hrl3, hwf3f, _⟩ :=
    withCol_frame (fun vs vs' hh => codedColFn_length hh) h3
  obtain ⟨hh4, hrl4, hwf4f, _⟩ :=
    withCol_frame (fun vs vs' hh => codedColFn_length hh) h4
  obtain ⟨hh5, hrl5, hwf5f, _⟩ :=
    withCol_frame (fun vs vs' hh => binnedColFn_length hh) h5
  obtain ⟨hh6, hrl6, hwf6f, _⟩ :=
    withCol_frame (fun vs vs' hh => binnedColFn_length hh) h6
  obtain ⟨hh7, hrl7, hwf7f, _⟩ :=
    withCol_frame (fun vs vs' hh => dayColFn_length hh) h7
  obtain ⟨hh8, hrl8, hwf8f, _⟩ :=
    withCol_frame (fun vs vs' hh => dayColFn_length hh) h8
  have hwf8 : WF t8 := hwf8f (hwf7f (hwf6f (hwf5f (hwf4f (hwf3f hwf2)))))
  obtain ⟨hhF, hrlF, hwfF, _⟩ := finalPass_spec h9 hwf8
  constructor
  · have e2 : t'.rows.length = (dedupStep t1).rows.length := by
      rw [hrlF, hrl8, hrl7, hrl6, hrl5, hrl4, hrl3, hrl2]
    have e1 : t1.rows.length = t.rows.length := hrl1
    omega
  · rw [hhF, hh8, hh7, hh6, hh5, hh4, hh3, hh2, hhD, hh1]
    rfl

/-- C8 witness: the statement applied to a table with one duplicated
row. -/
theorem C8_witness :
    rowCount (dedupRows [[Val.num 20], [Val.num 20]]) [Val.num 20] = 1 ∧
      (⟨["BMI"], [[Val.num 20]]⟩ : Table).rows.length ≤
        (⟨["BMI"], [[Val.num 20], [Val.num 20]]⟩ : Table).rows.length := by
  refine ⟨C8_dedup.2.2.2.2.1 [[Val.num 20], [Val.num 20]] [Val.num 20]
    (by decide), ?_⟩
  exact (C8_dedup.2.2.2.2.2 ⟨["BMI"], [[Val.num 20], [Val.num 20]]⟩
    ⟨["BMI"], [[Val.num 20]]⟩
    (by intro r hr; simp at hr; rcases hr with rfl | rfl <;> rfl)
    (by decide)).1

/-! ### Identity lemmas for already-clean columns (claim C9) -/

theorem contains_of_mem {l : List String} {a : String} (h : a ∈ l) :
    l.contains a = true := by
  induction l with
  | nil => simp at h
  | cons b l ih =>
    rcases List.mem_cons.mp h with rfl | h'
    · simp [List.contains_cons]
    · simp only [List.contains_cons, Bool.or_eq_true, beq_iff_eq]
      exact Or.inr (ih h')

theorem intIn_parts {lo hi q : ℚ} (h : intIn lo hi q = true) :
    q.den = 1 ∧ lo ≤ q ∧ q ≤ hi := by
  simp only [intIn, Bool.and_eq_true, beq_iff_eq, decide_eq_true_eq] at h
  exact ⟨h.1.1, h.1.2, h.2⟩

theorem cleanVal_parts {name : String} {v : Val} (h : cleanVal name v = true) :
    ∃ q, v = .num q ∧
      (binaryCols.contains name = true → q = 0 ∨ q = 1) ∧
      (name = "GenHlth" → intIn 1 5 q = true) ∧
      (name = "Education" → intIn 1 6 q = true) ∧
      (name = "Age" → intIn 1 13 q = true) ∧
      (name = "Income" → intIn 1 8 q = true) ∧
      (name = "MentHlth" → intIn 0 30 q = true) ∧
      (name = "PhysHlth" → intIn 0 30 q = true) := by
  cases v with
  | str s => simp [cleanVal] at h
  | na => simp [cleanVal] at h
  | num q =>
    simp only [cleanVal, Bool.and_eq_true] at h
    obtain ⟨⟨⟨⟨⟨⟨hA, hB⟩, hC⟩, hD⟩, hE⟩, hF⟩, hG⟩ := h
    refine ⟨q, rfl, ?_, ?_, ?_, ?_, ?_, ?_, ?_⟩
    · intro hc
      rw [hc] at hA
      simpa using hA
    · intro hn
      rw [hn] at hB
      simpa using hB
    · intro hn
      rw [hn] at hC
      simpa using hC
    · intro hn
      rw [hn] at hD
      simpa using hD
    · intro hn
      rw [hn] at hE
      simpa using hE
    · intro hn
      rw [hn] at hF
      simpa using hF
    · intro hn
      rw [hn] at hG
      simpa using hG

theorem hasStr_eq_false_of_all_num {vs : List Val}
    (h : ∀ v ∈ vs, ∃ q, v = .num q) : hasStr vs = false := by
  simp only [hasStr, List.any_eq_false]
  intro v hv
  obtain ⟨q, rfl⟩ := h v hv
  simp [isStr]

theorem step1Fn_id {name : String} {vs : List Val}
    (hvs : ∀ v ∈ vs, ∃ q, v = .num q) (hne : vs ≠ []) :
    step1Fn name vs = some vs := by
  have hnostr := hasStr_eq_false_of_all_num hvs
  have hnona : ∀ v ∈ vs, isNA v = false := fun v hv => by
    obtain ⟨q, rfl⟩ := hvs v hv
    rfl
  unfold step1Fn
  split
  · obtain ⟨m, hm, _⟩ := medianVal_isSome hnostr
    rw [hm]
    simp [fillNA_id hnona]
  · split
    · have hfil : vs.filter (fun v => !(isNA v)) = vs := by
        rw [List.filter_eq_self]
        intro v hv
        simp [hnona v hv]
      obtain ⟨m, hm⟩ := modeVal_isSome (by rw [hfil]; exact hne)
      rw [hm]
      simp [fillNA_id hnona]
    · rfl

theorem colsPass_id {f : String → List Val → Option (List Val)} :
    ∀ (ks : List Nat) (t : Table), WF t →
      (∀ k ∈ ks, k < t.header.length) →
      (∀ k ∈ ks, f (t.header.getD k "") (colVals t k) = some (colVals t k)) →
      colsPass f t ks = some t := by
  intro ks
  induction ks with
  | nil => intro t _ _ _; rfl
  | cons k ks ih =>
    intro t hwf hbnd hid
    show (match f (t.header.getD k "") (colVals t k) with
      | none => (none : Option Table)
      | some vs => colsPass f (setCol t k vs) ks) = some t
    rw [hid k (by simp)]
    have hset : setCol t k (colVals t k) = t :=
      setCol_colVals_self (fun r hr => by
        rw [hwf r hr]
        exact hbnd k (by simp))
    show colsPass f (setCol t k (colVals t k)) ks = some t
    rw [hset]
    exact ih t hwf (fun j hj => hbnd j (by simp [hj]))
      (fun j hj => hid j (by simp [hj]))

theorem withCol_id {t : Table} {name : String}
    {f : List Val → Option (List Val)} (hwf : WF t)
    (hf : ∀ k, k < t.header.length → t.header.getD k "" = name →
      f (colVals t k) = some (colVals t k)) :
    withCol t name f = some t := by
  unfold withCol
  cases hidx : colIdx t name with
  | none => rfl
  | some k0 =>
    obtain ⟨hlt, hname⟩ := idxOf?_mem hidx
    show (match f (colVals t k0) with
      | none => (none : Option Table)
      | some vs => some (setCol t k0 vs)) = some t
    rw [hf k0 hlt hname]
    show some (setCol t k0 (colVals t k0)) = some t
    rw [setCol_colVals_self (fun r hr => by rw [hwf r hr]; exact hlt)]

theorem binaryPass_id : ∀ (cs : List String) (t : Table), WF t →
    (∀ k, k < t.header.length → t.header.getD k "" ∈ cs →
      ∀ v ∈ colVals t k, v = .num 0 ∨ v = .num 1) →
    binaryPass t cs = some t := by
  intro cs
  induction cs with
  | nil => intro t _ _; rfl
  | cons c cs ih =>
    intro t hwf hbin
    have hw : withCol t c (fun vs => some (vs.map binCoerce)) = some t := by
      apply withCol_id hwf
      intro k hk hname
      have hmap : (colVals t k).map binCoerce = colVals t k := by
        apply map_id_of_eq
        intro v hv
        rcases hbin k hk (by rw [hname]; exact List.mem_cons_self c cs) v hv
          with rfl | rfl
        · decide
        · decide
      rw [hmap]
    show (match withCol t c (fun vs => some (vs.map binCoerce)) with
      | none => (none : Option Table)
      | some tm => binaryPass tm cs) = some t
    rw [hw]
    exact ih t hwf (fun k hk hm => hbin k hk (List.mem_cons_of_mem c hm))

theorem alreadyCoded_of_range {lo hi : ℚ} {vs : List Val}
    (hvs : ∀ v ∈ vs, ∃ q, v = .num q ∧ lo ≤ q ∧ q ≤ hi) :
    alreadyCoded lo hi vs = true := by
  unfold alreadyCoded
  rw [Bool.and_eq_true]
  constructor
  · rw [Bool.not_eq_true']
    exact hasStr_eq_false_of_all_num (fun v hv => (hvs v hv).imp fun q hq => hq.1)
  · rw [List.all_eq_true]
    intro v hv
    obtain ⟨q, rfl, hq1, hq2⟩ := hvs v hv
    simp [inRange, hq1, hq2]

theorem codedColFn_id {codes : List ℚ} {labels : List (String × ℚ)}
    {lo hi : ℚ} {vs : List Val}
    (hvs : ∀ v ∈ vs, ∃ q, v = .num q ∧ lo ≤ q ∧ q ≤ hi) :
    codedColFn codes labels lo hi vs = some vs := by
  rw [codedColFn_eq, if_pos (alreadyCoded_of_range hvs)]
  congr 1
  apply map_id_of_eq
  intro v hv
  obtain ⟨q, rfl, h1, h2⟩ := hvs v hv
  exact clipVal_num_id h1 h2

theorem binnedColFn_id {lo hi : ℚ} {fillV : List Val → Val} {cut : Val → Val}
    {vs : List Val}
    (hvs : ∀ v ∈ vs, ∃ q, v = .num q ∧ lo ≤ q ∧ q ≤ hi) :
    binnedColFn lo hi fillV cut vs = some vs := by
  rw [binnedColFn_eq, if_pos (alreadyCoded_of_range hvs)]
  rw [if_neg (by
    simp [hasStr_eq_false_of_all_num
      (fun v hv => (hvs v hv).imp fun q hq => hq.1)])]

theorem dayColFn_id {vs : List Val}
    (hvs : ∀ v ∈ vs, ∃ q, v = .num q ∧ q.den = 1 ∧ 0 ≤ q ∧ q ≤ 30) :
    dayColFn vs = some vs := by
  have hnum : ∀ v ∈ vs, ∃ q, v = .num q :=
    fun v hv => (hvs v hv).imp fun q hq => hq.1
  have hnostr := hasStr_eq_false_of_all_num hnum
  have hnona : ∀ v ∈ vs, isNA v = false := fun v hv => by
    obtain ⟨q, rfl⟩ := hnum v hv
    rfl
  rw [dayColFn_eq]
  obtain ⟨m, hm, _⟩ := medianVal_isSome hnostr
  rw [hm]
  have hmapid : vs.map toNum = vs := map_id_of_eq (fun v hv => by
    obtain ⟨q, rfl⟩ := hnum v hv
    rfl)
  show astypeInt ((fillNA (vs.map toNum) m).map (clipVal 0 30)) = some vs
  rw [hmapid, fillNA_id hnona]
  have hclipid : vs.map (clipVal 0 30) = vs := map_id_of_eq (fun v hv => by
    obtain ⟨q, rfl, _, h0, h30⟩ := hvs v hv
    exact clipVal_num_id h0 h30)
  rw [hclipid]
  have hall : vs.all isNumV = true := by
    rw [List.all_eq_true]
    intro v hv
    obtain ⟨q, rfl⟩ := hnum v hv
    rfl
  unfold astypeInt
  rw [if_pos hall]
  congr 1
  apply map_id_of_eq
  intro v hv
  obtain ⟨q, rfl, hden, _, _⟩ := hvs v hv
  show Val.num ((truncQ q : ℤ) : ℚ) = Val.num q
  rw [truncQ_intCast_of_den_one hden]

/-- C9: the engine is the identity on an already-clean nonempty
table (canonical column names, every cell numeric and within the §3
invariants, no duplicate rows), hence applying it twice yields exactly
the result of applying it once. -/
theorem C9_idempotent {t : Table} (hwf : WF t)
    (hcanon : t.header.map canonName = t.header)
    (hclean : Clean t) (hne : t.rows ≠ []) :
    preprocess_survey_data t = some t ∧
      (preprocess_survey_data t).bind preprocess_survey_data
        = preprocess_survey_data t := by
  have hcols := hclean.1
  have hnum : ∀ k, k < t.header.length → ∀ v ∈ colVals t k, ∃ q, v = .num q :=
    fun k hk v hv => ((cleanVal_parts (hcols k hk v hv)).imp fun q hq => hq.1)
  have hcolne : ∀ k, colVals t k ≠ [] := by
    intro k hcon
    apply hne
    have hln := congrArg List.length hcon
    rw [colVals_length] at hln
    exact List.length_eq_zero.mp hln
  have hcanonT : canonTable t = t := by
    cases t with
    | mk hdr rows =>
      simp only [canonTable]
      rw [show List.map canonName hdr = hdr from hcanon]
  have hs1 : step1 t = some t := by
    unfold step1
    apply colsPass_id _ t hwf (fun k hk => List.mem_range.mp hk)
    intro k hk
    exact step1Fn_id (hnum k (List.mem_range.mp hk)) (hcolne k)
  have hdd : dedupStep t = t := by
    have hrows : dedupRows t.rows = t.rows :=
      dedupAux_eq_self hclean.2 (fun r _ => List.not_mem_nil r)
    unfold dedupStep
    rw [hrows]
  have hbp : binaryPass t binaryCols = some t := by
    apply binaryPass_id binaryCols t hwf
    intro k hk hmem v hv
    obtain ⟨q, rfl, hbq, _⟩ := cleanVal_parts (hcols k hk v hv)
    rcases hbq (contains_of_mem hmem) with rfl | rfl
    · exact Or.inl rfl
    · exact Or.inr rfl
  have hgen : genhlthStep t = some t := by
    apply withCol_id hwf
    intro k hk hname
    apply codedColFn_id
    intro v hv
    obtain ⟨q, rfl, _, hg, _⟩ := cleanVal_parts (hcols k hk v hv)
    obtain ⟨_, h1, h2⟩ := intIn_parts (hg hname)
    exact ⟨q, rfl, h1, h2⟩
  have heduc : educationStep t = some t := by
    apply withCol_id hwf
    intro k hk hname
    apply codedColFn_id
    intro v hv
    obtain ⟨q, rfl, _, _, he, _⟩ := cleanVal_parts (hcols k hk v hv)
    obtain ⟨_, h1, h2⟩ := intIn_parts (he hname)
    exact ⟨q, rfl, h1, h2⟩
  have hage : ageStep t = some t := by
    apply withCol_id hwf
    intro k hk hname
    apply binnedColFn_id
    intro v hv
    obtain ⟨q, rfl, _, _, _, ha, _⟩ := cleanVal_parts (hcols k hk v hv)
    obtain ⟨_, h1, h2⟩ := intIn_parts (ha hname)
    exact ⟨q, rfl, h1, h2⟩
  have hincome : incomeStep t = some t := by
    apply withCol_id hwf
    intro k hk hname
    apply binnedColFn_id
    intro v hv
    obtain ⟨q, rfl, _, _, _, _, hi, _⟩ := cleanVal_parts (hcols k hk v hv)
    obtain ⟨_, h1, h2⟩ := intIn_parts (hi hname)
    exact ⟨q, rfl, h1, h2⟩
  have hment : mentStep t = some t := by
    apply withCol_id hwf
    intro k hk hname
    apply dayColFn_id
    intro v hv
    obtain ⟨q, rfl, _, _, _, _, _, hm, _⟩ := cleanVal_parts (hcols k hk v hv)
    obtain ⟨hden, h1, h2⟩ := intIn_parts (hm hname)
    exact ⟨q, rfl, hden, h1, h2⟩
  have hphys : physStep t = some t := by
    apply withCol_id hwf
    intro k hk hname
    apply dayColFn_id
    intro v hv
    obtain ⟨q, rfl, _, _, _, _, _, _, hp⟩ := cleanVal_parts (hcols k hk v hv)
    obtain ⟨hden, h1, h2⟩ := intIn_parts (hp hname)
    exact ⟨q, rfl, hden, h1, h2⟩
  have hfp : finalPass t = some t := by
    unfold finalPass
    apply colsPass_id _ t hwf (fun k hk => List.mem_range.mp hk)
    intro k hk
    exact finalColFn_of_all_num (hnum k (List.mem_range.mp hk))
  have hmain : preprocess_survey_data t = some t := by
    unfold preprocess_survey_data
    rw [hcanonT, hs1, Option.some_bind, hdd, hbp, Option.some_bind, hgen,
      Option.some_bind, heduc, Option.some_bind, hage, Option.some_bind,
      hincome, Option.some_bind, hment, Option.some_bind, hphys,
      Option.some_bind]
    exact hfp
  exact ⟨hmain, by rw [hmain, Option.some_bind, hmain]⟩

/-- C9 witness: the statement applied to a clean one-column table. -/
theorem C9_witness :
    preprocess_survey_data ⟨["GenHlth"], [[Val.num 3]]⟩
      = some ⟨["GenHlth"], [[Val.num 3]]⟩ ∧
      (preprocess_survey_data ⟨["GenHlth"], [[Val.num 3]]⟩).bind
          preprocess_survey_data
        = preprocess_survey_data ⟨["GenHlth"], [[Val.num 3]]⟩ :=
  C9_idempotent
    (by intro r hr; rw [List.mem_singleton.mp hr]; rfl)
    (by decide)
    ⟨by decide, by decide⟩
    (by decide)

end DiabetesPrep
